import Mathlib

/-!
# Verification of the django-google-adwords synchronization engine

Shallow embedding of `django_google_adwords/models.py` (the repository's one
source file) and proofs of the frozen claims about it.

Conventions of the embedding:

* Python strings are `String` / `List Char`; `Decimal` values are `ℚ`
  (Python `Decimal` equality is numeric equality, as is `ℚ`'s).
* Fallible Python code (exceptions) is embedded with `Option`/`Except`.
* Django model instances are association lists from field name to `Value`;
  the persistent store maps the `get`/constructor kwargs to the saved row.
* Dates are integers (a day count); only their linear order matters here.
-/

namespace DGA

/-! ## Character classes used by the regexes in `models.py`

`first_cap_re = re.compile('(.)([A-Z][a-z]+)')`
`all_cap_re = re.compile('([a-z0-9])([A-Z])')`
-/

def isUpper (c : Char) : Bool := 'A' ≤ c && c ≤ 'Z'

def isLower (c : Char) : Bool := 'a' ≤ c && c ≤ 'z'

def isDigit (c : Char) : Bool := '0' ≤ c && c ≤ '9'

/-- One pass of `first_cap_re.sub(r'\1_\2', s)`: Python `re.sub` scans left to
right and replaces non-overlapping matches of `(.)([A-Z][a-z]+)`, i.e. any
character followed by an upper-case letter followed by a non-empty greedy run
of lower-case letters, inserting `_` between group 1 and group 2.  After a
match, scanning resumes right after the consumed text.  The `fuel` argument
exists only to make the recursion structural (each step consumes at least one
character, so `fuel = length` is enough); it does not affect the semantics. -/
def firstCapSubAux : Nat → List Char → List Char
  | 0, l => l
  | _ + 1, [] => []
  | _ + 1, [c] => [c]
  | fuel + 1, c₁ :: c₂ :: rest =>
    if isUpper c₂ && isLower (rest.headD ' ') then
      c₁ :: '_' :: c₂ :: (rest.takeWhile isLower ++ firstCapSubAux fuel (rest.dropWhile isLower))
    else
      c₁ :: firstCapSubAux fuel (c₂ :: rest)

def firstCapSub (l : List Char) : List Char := firstCapSubAux l.length l

/-- One pass of `all_cap_re.sub(r'\1_\2', s)`: replaces non-overlapping
matches of `([a-z0-9])([A-Z])` with `\1_\2`, scanning left to right. -/
def allCapSub : List Char → List Char
  | [] => []
  | [c] => [c]
  | c₁ :: c₂ :: rest =>
    if (isLower c₁ || isDigit c₁) && isUpper c₂ then
      c₁ :: '_' :: c₂ :: allCapSub rest
    else
      c₁ :: allCapSub (c₂ :: rest)

/-- Python `str.lower()` on ASCII letters. -/
def lowerChar (c : Char) : Char :=
  if isUpper c then Char.ofNat (c.toNat + 32) else c

/-- `attribute_to_field_name` (models.py lines 44-46):

```python
def attribute_to_field_name(attribute):
    s1 = first_cap_re.sub(r'\1_\2', attribute[1:])
    return all_cap_re.sub(r'\1_\2', s1).lower()
```

Note `attribute[1:]`: the first character of the attribute name is dropped
(row keys produced by `xmltodict` carry a leading `@`). -/
def attribute_to_field_name (attr : String) : String :=
  ⟨(allCapSub (firstCapSub attr.data.tail)).map lowerChar⟩

/-! ## camelCase attribute shapes (claim C9)

To state the name-mangling rule for every camelCase attribute at once, a
camelCase name after the leading `@` and leading word is described as a
list of words, each given by its upper-case initial and its remaining
(lower-case) letters. -/

/-- A camelCase attribute tail, given as a list of words: each word is its
upper-case initial paired with its remaining letters.  The concatenation is
the camelCase spelling that follows the leading word. -/
def camelWords (ws : List (Char × List Char)) : List Char :=
  (ws.map (fun w => w.1 :: w.2)).flatten

/-- The snake_case spelling of the same words: each behind an underscore,
with the initial lower-cased. -/
def snakeWords (ws : List (Char × List Char)) : List Char :=
  (ws.map (fun w => '_' :: lowerChar w.1 :: w.2)).flatten

/-- What the first regex pass leaves of a camelCase tail: an underscore
lands before the 1st, 3rd, 5th … capitalized word only, because each
`(.)([A-Z][a-z]+)` match consumes the separator-donor character, the
capital and the following lower-case run, so the word right after a match
gets no separator.  The `Bool` records whether the next word still gets
one. -/
def fcsShape : Bool → List (Char × List Char) → List Char
  | _, [] => []
  | true, w :: ws => '_' :: w.1 :: (w.2 ++ fcsShape false ws)
  | false, w :: ws => w.1 :: (w.2 ++ fcsShape true ws)

/-- The second pass's result: an underscore before every capitalized word,
capitals not yet lowered. -/
def snakeShape (ws : List (Char × List Char)) : List Char :=
  (ws.map (fun w => '_' :: w.1 :: w.2)).flatten

/-- A camelCase word list is well formed: each word has an upper-case
initial and a non-empty all-lower-case tail. -/
def GoodWords (ws : List (Char × List Char)) : Prop :=
  ∀ w ∈ ws, isUpper w.1 = true ∧ w.2 ≠ [] ∧ ∀ c ∈ w.2, isLower c = true

instance (ws : List (Char × List Char)) : Decidable (GoodWords ws) := by
  unfold GoodWords
  infer_instance

/-! ## The field cleaner (`clean` inside `populate_model_from_dict`) -/

/-- The semantic field classes that `clean` dispatches on via `isinstance`.
`money` is `MoneyField`, `decimal` is a plain `DecimalField` (the `MoneyField`
branch of the `elif` chain is checked first, so `decimal` here means a
`DecimalField` that is not a `MoneyField`); `integerF`, `charF` and `dateF`
are the remaining field classes occurring in the models (`IntegerField` /
`BigIntegerField`, `CharField` / `TextField`, `DateField`), all of which fall
into `clean`'s final pass-through branch. -/
inductive FieldKind
  | money
  | decimal
  | integerF
  | charF
  | dateF
deriving DecidableEq, Repr

/-- Result of `clean`: Python `None`, a `Decimal` (ℚ), or a string. -/
inductive Cleaned
  | null
  | dec (q : ℚ)
  | raw (s : String)
deriving DecidableEq, Repr

/-- Python `int(value)` on a string: optional sign followed by a non-empty
run of digits (`none` models the `ValueError` raised otherwise). -/
def parseInt? (s : String) : Option Int :=
  let digits (l : List Char) : Option Nat :=
    if l.isEmpty || !l.all isDigit then none
    else some (l.foldl (fun n c => 10 * n + (c.toNat - '0'.toNat)) 0)
  match s.data with
  | '-' :: rest => (digits rest).map (fun n => -(n : Int))
  | '+' :: rest => (digits rest).map (fun n => (n : Int))
  | l => (digits l).map (fun n => (n : Int))

/-- The character-removal table of the `DecimalField` branch:
`mapping = [('%', ''), ('<', ''), ('>', ''), (',', ''), (' ', '')]`, applied
as successive `value.replace(k, v)` calls.  Replacing single distinct
characters by the empty string in sequence is filtering them out. -/
def stripDecimalChars (s : String) : String :=
  ⟨[('%' : Char), '<', '>', ',', ' '].foldl
    (fun (l : List Char) (k : Char) => l.filter (fun c => c ≠ k)) s.data⟩

/-- `clean(value, field)` (models.py lines 57-77):

```python
def clean(value, field):
    if value == '--':
        return None
    elif isinstance(field, MoneyField):
        if int(value) > 0:
            return Decimal(value)/1000000
        return Decimal(value)
    elif isinstance(field, DecimalField):
        mapping = [('%', ''), ('<', ''), ('>', ''), (',', ''), (' ', '')]
        for k, v in mapping:
            value = value.replace(k, v)
        return value
    else:
        return value
```

`none` models the `ValueError` escaping from `int(value)`.  In the branch
where `int(value)` succeeded, `Decimal(value)` equals that same integer `n`;
`mkRat n 1000000` is the rational `n / 1000000` (`Rat.mkRat_eq_div`) and
`mkRat n 1` is `n`, spelled with `mkRat` so that the kernel can evaluate. -/
def clean (value : String) (field : FieldKind) : Option Cleaned :=
  if value = "--" then some .null
  else
    match field with
    | .money =>
      match parseInt? value with
      | none => none
      | some n => if n > 0 then some (.dec (mkRat n 1000000)) else some (.dec (mkRat n 1))
    | .decimal => some (.raw (stripDecimalChars value))
    | _ => some (.raw value)

end DGA

namespace DGA

/-! ## Values, model instances and the store

A Django model instance is embedded as an association list from field name to
`Value`; the persistent table maps the kwargs used by
`model_cls.objects.get(**kwargs)` (which are also the constructor kwargs) to
the saved row.  Only decidable-equality data lives in `Value`: `Decimal` and
`Money` amounts and timestamps are `ℚ`, dates are encoded integers. -/

inductive Value
  | null
  | num (q : ℚ)
  | str (s : String)
  | dateV (d : ℤ)
deriving DecidableEq, Repr

/-- Association-list lookup with decidable key equality. -/
def alookup {α β : Type} [DecidableEq α] : List (α × β) → α → Option β
  | [], _ => none
  | (a, b) :: l, x => if a = x then some b else alookup l x

/-- Association-list update: replaces the first binding of the key, appending
a new binding when the key is absent. -/
def aset {α β : Type} [DecidableEq α] : List (α × β) → α → β → List (α × β)
  | [], x, v => [(x, v)]
  | (a, b) :: l, x, v => if a = x then (x, v) :: l else (a, b) :: aset l x v

abbrev Entity := List (String × Value)

/-- Python `getattr(model, f)`; a Django instance always carries every schema
field, so the `.null` fallback is only ever reached off-schema. -/
def get_attr (e : Entity) (f : String) : Value := (alookup e f).getD .null

/-- Python `setattr(model, f, v)`. -/
def set_attr (e : Entity) (f : String) (v : Value) : Entity := aset e f v

/-- A model field as `model._meta.get_field` reveals it: its semantic class
and its declared default (most fields are `null=True` defaulting to `None`;
the `MoneyField`s declare `default=0`). -/
structure FieldSpec where
  kind : FieldKind
  dflt : Value
deriving DecidableEq, Repr

abbrev Schema := List (String × FieldSpec)

/-- `PopulatingGoogleAdwordsQuerySet.IGNORE_FIELDS = ['created', 'updated']`. -/
def IGNORE_FIELDS : List String := ["created", "updated"]

/-- The two exceptions that can escape `populate_model_from_dict`:
`ValidationError(field_name, e.messages)` re-raised from a
`DjangoValidationError` of `field.to_python`, and the `ValueError` that
`int(value)` inside `clean` raises on a malformed monetary string (the
`try` only wraps `field.to_python`). -/
inductive PopErr
  | validation (fieldName : String) (messages : List String)
  | valueError
deriving DecidableEq, Repr

/-- The embedding is parametric in the coercion `field.to_python`: that
dispatch lives in Django and the money library, outside this repository.  It
maps a field's class and the cleaned value to a typed value or the messages
of a `DjangoValidationError`. -/
abbrev ToPython := FieldKind → Cleaned → Except (List String) Value

/-- The body of the `for key, _value in data.items()` loop of
`populate_model_from_dict` (models.py lines 79-97), threading the in-memory
`model` and the `update_fields` accumulator:

```python
for key, _value in data.items():
    field_name = to_field_name(key)
    if field_name in self.IGNORE_FIELDS or field_name in ignore_fields:
        continue
    try:
        field = model._meta.get_field(field_name)
    except FieldDoesNotExist:
        continue
    value = clean(_value, field)
    try:
        value = field.to_python(value)
    except DjangoValidationError as e:
        raise ValidationError(field_name, e.messages)
    if value != getattr(model, field_name):
        update_fields.append(field_name)
        setattr(model, field_name, value)
```
-/
def populateLoop (schema : Schema) (tp : ToPython) (ignore_fields : List String) :
    List (String × String) → Entity → List String → Except PopErr (Entity × List String)
  | [], model, ufs => .ok (model, ufs)
  | (key, _value) :: rest, model, ufs =>
    let field_name := attribute_to_field_name key
    if field_name ∈ IGNORE_FIELDS ∨ field_name ∈ ignore_fields then
      populateLoop schema tp ignore_fields rest model ufs
    else
      match alookup schema field_name with
      | none => populateLoop schema tp ignore_fields rest model ufs
      | some fs =>
        match clean _value fs.kind with
        | none => .error .valueError
        | some cleaned =>
          match tp fs.kind cleaned with
          | .error msgs => .error (.validation field_name msgs)
          | .ok value =>
            if value ≠ get_attr model field_name then
              populateLoop schema tp ignore_fields rest (set_attr model field_name value)
                (ufs ++ [field_name])
            else
              populateLoop schema tp ignore_fields rest model ufs

/-- `populate_model_from_dict(model, data, ignore_fields)`: runs the loop
with an empty `update_fields` and returns the mutated model together with
the list of changed fields. -/
def populate_model_from_dict (schema : Schema) (tp : ToPython) (ignore_fields : List String)
    (model : Entity) (data : List (String × String)) : Except PopErr (Entity × List String) :=
  populateLoop schema tp ignore_fields data model []

/-- The outcome of one `data` entry, which depends only on the schema (not on
the model being populated): skipped, failed in `clean` (`ValueError`), failed
in `to_python` (`ValidationError`), or a coerced value for a field. -/
inductive EntryOut
  | skipped
  | failClean
  | failCoerce (fieldName : String) (messages : List String)
  | val (fieldName : String) (v : Value)
deriving DecidableEq, Repr

def entryOut (schema : Schema) (tp : ToPython) (ignore_fields : List String)
    (kv : String × String) : EntryOut :=
  let field_name := attribute_to_field_name kv.1
  if field_name ∈ IGNORE_FIELDS ∨ field_name ∈ ignore_fields then .skipped
  else
    match alookup schema field_name with
    | none => .skipped
    | some fs =>
      match clean kv.2 fs.kind with
      | none => .failClean
      | some cleaned =>
        match tp fs.kind cleaned with
        | .error msgs => .failCoerce field_name msgs
        | .ok value => .val field_name value

/-- The internal field names a `data` dict's keys map to. -/
def mappedFields (data : List (String × String)) : List String :=
  data.map (fun kv => attribute_to_field_name kv.1)

abbrev Kwargs := List (String × Value)
abbrev Store := List (Kwargs × Entity)

/-- `model_cls(**kwargs)`: a fresh instance has every schema field, seeded
with its kwarg when given and its declared default otherwise. -/
def newModel (schema : Schema) (kwargs : Kwargs) : Entity :=
  schema.map (fun nfs => (nfs.1, (alookup kwargs nfs.1).getD nfs.2.dflt))

/-- `model.save()` on a new instance: the row gets every schema column from
the instance, and the `auto_now_add` / `auto_now` timestamps `created` and
`updated` are stamped with the current time (Django's `pre_save` also sets
them on the instance itself, which `_populate` then returns). -/
def saveNew (schema : Schema) (model : Entity) (now : ℚ) : Entity :=
  schema.map (fun nfs =>
    (nfs.1, if nfs.1 = "created" ∨ nfs.1 = "updated" then .num now else get_attr model nfs.1))

/-- `model.save(update_fields=ufs)` on an existing row: only the listed
columns are written (from the instance); every other column keeps its stored
value.  Django applies `auto_now` only to fields contained in
`update_fields`, so the `updated` timestamp is written only if `ufs` lists
it; and when `ufs` is empty Django skips the write altogether, which is the
same as writing no column. -/
def saveUpdate (schema : Schema) (old model : Entity) (ufs : List String) (now : ℚ) : Entity :=
  schema.map (fun nfs =>
    (nfs.1,
      if nfs.1 ∈ ufs then
        (if nfs.1 = "updated" then .num now else get_attr model nfs.1)
      else get_attr old nfs.1))

/-- `_populate(data, ignore_fields, **kwargs)` (models.py lines 101-120):
get or create by kwargs, populate from the dict, then save — a full save for
a new instance (`model.pk is None`), `save(update_fields=update_fields)` for
an existing one.  Returns the new store, the returned model and the computed
`update_fields`. -/
def low_populate (schema : Schema) (tp : ToPython) (ignore_fields : List String)
    (kwargs : Kwargs) (data : List (String × String)) (now : ℚ) (store : Store) :
    Except PopErr (Store × Entity × List String) :=
  match alookup store kwargs with
  | some model₀ =>
    match populate_model_from_dict schema tp ignore_fields model₀ data with
    | .error e => .error e
    | .ok (model, ufs) =>
      let saved := saveUpdate schema model₀ model ufs now
      .ok (aset store kwargs saved, model, ufs)
  | none =>
    match populate_model_from_dict schema tp ignore_fields (newModel schema kwargs) data with
    | .error e => .error e
    | .ok (model, ufs) =>
      let saved := saveNew schema model now
      .ok (aset store kwargs saved, saved, ufs)

/-! ## The locked populate wrappers

Every `QuerySet.populate` in models.py has the same shape: spin on
`acquire_googleadwords_lock(Model, identifier)` until it succeeds, then in a
`try`/`finally` run `self._populate(...)` and release the lock on every exit
path.  The lock table is the set of held `(kind, identifier)` pairs. -/

structure LockKey where
  kind : String
  ident : String
deriving DecidableEq, Repr

structure DBState where
  locks : List LockKey
  store : Store
deriving DecidableEq, Repr

def acquireLock (s : DBState) (lk : LockKey) : DBState :=
  { s with locks := lk :: s.locks }

/-- `release_googleadwords_lock` clears the held marker unconditionally. -/
def releaseLock (s : DBState) (lk : LockKey) : DBState :=
  { s with locks := s.locks.filter (fun k => k ≠ lk) }

/-- One sequential `populate` call (e.g. `Campaign.QuerySet.populate`, models.py
lines 667-684).  The spin loop `while not acquire_googleadwords_lock(...)`
only lets the call proceed once the lock is free — theorems about this
function assume `lk ∉ s.locks`; the interleaved multi-worker protocol is the
separate transition system below.  The `finally` releases the lock both on
success and on an escaping exception. -/
def populate (schema : Schema) (tp : ToPython) (ignore_fields : List String) (lk : LockKey)
    (kwargs : Kwargs) (data : List (String × String)) (now : ℚ) (s : DBState) :
    Except PopErr (Entity × List String) × DBState :=
  let s₁ := acquireLock s lk
  match low_populate schema tp ignore_fields kwargs data now s₁.store with
  | .error e => (.error e, releaseLock s₁ lk)
  | .ok (store', model, ufs) => (.ok (model, ufs), releaseLock { s₁ with store := store' } lk)

/-! ## A concrete coercion instance

The populate theorems are parametric in `field.to_python`; witnesses and
counterexamples need one executable instance. -/

/-- The numeric value of a digit string. -/
def digitsVal (l : List Char) : Nat :=
  l.foldl (fun n c => 10 * n + (c.toNat - '0'.toNat)) 0

/-- Python `Decimal(string)` on plain decimal literals: optional sign, then
digits with an optional decimal point (at least one digit overall). -/
def parseDecimal? (s : String) : Option ℚ :=
  let core (l : List Char) : Option ℚ :=
    match l.splitOn '.' with
    | [ip] =>
      if ip ≠ [] ∧ ip.all isDigit then some (mkRat (digitsVal ip) 1) else none
    | [ip, fp] =>
      if (ip ≠ [] ∨ fp ≠ []) ∧ ip.all isDigit ∧ fp.all isDigit then
        some (mkRat (digitsVal ip * 10 ^ fp.length + digitsVal fp) (10 ^ fp.length))
      else none
    | _ => none
  match s.data with
  | '-' :: rest => (core rest).map (fun q => -q)
  | '+' :: rest => core rest
  | l => core l

/-- An ISO `YYYY-MM-DD` date string, encoded as the integer `y*10000+m*100+d`
(which orders like the calendar date). -/
def parseDate? (s : String) : Option ℤ :=
  match s.data.splitOn '-' with
  | [y, m, d] =>
    if y ≠ [] ∧ m ≠ [] ∧ d ≠ [] ∧ y.all isDigit ∧ m.all isDigit ∧ d.all isDigit then
      some ((digitsVal y : ℤ) * 10000 + (digitsVal m : ℤ) * 100 + (digitsVal d : ℤ))
    else none
  | _ => none

/-- Modelled from the spec: the coercion step (§4.2,
`coerce(cleanedString, semanticType) -> typedValue | FieldValidationError`)
is `field.to_python`, which lives in Django's field classes and the money
library, outside this repository's source.  This executable instance follows
the spec's description: numeric classes parse a decimal/integer literal (a
`Decimal` produced by `clean` passes through), the date class parses
`YYYY-MM-DD`, character classes pass strings through, and `None` is accepted
by every class; a failed parse carries a message list.  The populate theorems
are parametric in the coercion — this instance only feeds their witnesses and
counterexamples. -/
def toPythonC : ToPython
  | _, .null => .ok .null
  | .money, .dec q => .ok (.num q)
  | .money, .raw s =>
    match parseDecimal? s with
    | some q => .ok (.num q)
    | none => .error ["This value must be a decimal number."]
  | .decimal, .dec q => .ok (.num q)
  | .decimal, .raw s =>
    match parseDecimal? s with
    | some q => .ok (.num q)
    | none => .error ["This value must be a decimal number."]
  | .integerF, .dec q => .ok (.num q)
  | .integerF, .raw s =>
    match parseInt? s with
    | some n => .ok (.num (mkRat n 1))
    | none => .error ["This value must be an integer."]
  | .charF, .dec q => .ok (.num q)
  | .charF, .raw s => .ok (.str s)
  | .dateF, .dec _ => .error ["This value has an invalid date format."]
  | .dateF, .raw s =>
    match parseDate? s with
    | some d => .ok (.dateV d)
    | none => .error ["This value has an invalid date format."]

/-! ## The watermark finalizers (claim C5)

The hierarchy records and daily-metrics rows, reduced to the fields the
finalizers read (each real row carries ~30 more measures; only the parent
reference and `day` — plus `cost` for `Account.spend` — take part here).
Dates are `ℤ` (only their order matters).  Parent references are by the
parent's natural key. -/

structure DailyAccountMetricsRow where
  account : ℤ
  day : ℤ
  cost : ℚ
deriving DecidableEq, Repr

structure CampaignRow where
  campaign_id : ℤ
  account : ℤ
deriving DecidableEq, Repr

structure DailyCampaignMetricsRow where
  campaign : ℤ
  day : ℤ
deriving DecidableEq, Repr

structure AdGroupRow where
  ad_group_id : ℤ
  campaign : ℤ
deriving DecidableEq, Repr

structure DailyAdGroupMetricsRow where
  ad_group : ℤ
  day : ℤ
deriving DecidableEq, Repr

structure AdRow where
  ad_id : ℤ
  ad_group : ℤ
deriving DecidableEq, Repr

structure DailyAdMetricsRow where
  ad : ℤ
  day : ℤ
deriving DecidableEq, Repr

/-- The tables the finalizers and `spend` query. -/
structure MetricsDB where
  accountMetrics : List DailyAccountMetricsRow
  campaigns : List CampaignRow
  campaignMetrics : List DailyCampaignMetricsRow
  adGroups : List AdGroupRow
  adGroupMetrics : List DailyAdGroupMetricsRow
  ads : List AdRow
  adMetrics : List DailyAdMetricsRow
deriving DecidableEq, Repr

/-- The `Account` model, reduced to the fields the finalizers, `sync` and
`spend` read or write. -/
structure AccountRec where
  account_id : ℤ
  status : String
  account_last_synced : Option ℤ
  campaign_last_synced : Option ℤ
  ad_group_last_synced : Option ℤ
  ad_last_synced : Option ℤ
  updated : ℚ
deriving DecidableEq, Repr

/-- `Campaign.objects.filter(campaign__account=self)`-style join: is the
campaign with natural key `cid` owned by account `aid`? -/
def campaign_under (db : MetricsDB) (aid cid : ℤ) : Bool :=
  db.campaigns.any (fun c => c.campaign_id = cid && c.account = aid)

def ad_group_under (db : MetricsDB) (aid agid : ℤ) : Bool :=
  db.adGroups.any (fun g => g.ad_group_id = agid && campaign_under db aid g.campaign)

def ad_under (db : MetricsDB) (aid adid : ℤ) : Bool :=
  db.ads.any (fun x => x.ad_id = adid && ad_group_under db aid x.ad_group)

/-- Per-kind metric-day lists: `account_metric_days db aid` is what
`DailyAccountMetrics.objects.filter(account=self)` yields, projected to
`day`; the others walk the hierarchy joins of the corresponding
`finish_*_sync` querysets. -/
def account_metric_days (db : MetricsDB) (aid : ℤ) : List ℤ :=
  (db.accountMetrics.filter (fun r => r.account = aid)).map (fun r => r.day)

def campaign_metric_days (db : MetricsDB) (aid : ℤ) : List ℤ :=
  (db.campaignMetrics.filter (fun r => campaign_under db aid r.campaign)).map (fun r => r.day)

def ad_group_metric_days (db : MetricsDB) (aid : ℤ) : List ℤ :=
  (db.adGroupMetrics.filter (fun r => ad_group_under db aid r.ad_group)).map (fun r => r.day)

def ad_metric_days (db : MetricsDB) (aid : ℤ) : List ℤ :=
  (db.adMetrics.filter (fun r => ad_under db aid r.ad)).map (fun r => r.day)

/-- `Account.finish_account_sync` (models.py lines 254-262):

```python
self.account_last_synced = None
account_last_synced = DailyAccountMetrics.objects.filter(account=self).aggregate(Max('day'))
if account_last_synced.has_key('day__max'):
    self.account_last_synced = account_last_synced['day__max']
self.save(update_fields=['updated', 'account_last_synced'])
```

A Django `aggregate(Max('day'))` dict always carries the key `day__max`, with
value `None` on an empty queryset — so the watermark is always overwritten
with the aggregate, embedded as `List.max?`.  The save lists `updated`, so
`auto_now` stamps it. -/
def finish_account_sync (db : MetricsDB) (a : AccountRec) (now : ℚ) : AccountRec :=
  let day_max := (account_metric_days db a.account_id).max?
  { a with account_last_synced := day_max, updated := now }

/-- `Account.finish_campaign_sync` (models.py lines 264-272), aggregating over
`DailyCampaignMetrics.objects.filter(campaign__account=self)`. -/
def finish_campaign_sync (db : MetricsDB) (a : AccountRec) (now : ℚ) : AccountRec :=
  let day_max := (campaign_metric_days db a.account_id).max?
  { a with campaign_last_synced := day_max, updated := now }

/-- `Account.finish_ad_group_sync` (models.py lines 274-282), aggregating over
`DailyAdGroupMetrics.objects.filter(ad_group__campaign__account=self)`. -/
def finish_ad_group_sync (db : MetricsDB) (a : AccountRec) (now : ℚ) : AccountRec :=
  let day_max := (ad_group_metric_days db a.account_id).max?
  { a with ad_group_last_synced := day_max, updated := now }

/-- `Account.finish_ad_sync` (models.py lines 284-292), aggregating over
`DailyAdMetrics.objects.filter(ad__ad_group__campaign__account=self)`. -/
def finish_ad_sync (db : MetricsDB) (a : AccountRec) (now : ℚ) : AccountRec :=
  let day_max := (ad_metric_days db a.account_id).max?
  { a with ad_last_synced := day_max, updated := now }

/-! ## Date-range selection (claim C6) -/

/-- The per-kind start-date computation of `Account.sync` (models.py; the
account kind is lines 192-199, and the campaign / ad-group / ad kinds repeat
it verbatim with their own settings constants and watermark field):

```python
if not force and not self.account_last_synced:
    account_start = date.today() - timedelta(days=settings.GOOGLEADWORDS_NEW_ACCOUNT_ACCOUNT_SYNC_DAYS)
elif not force and self.account_last_synced:
    account_start = self.account_last_synced - timedelta(days=settings.GOOGLEADWORDS_EXISTING_ACCOUNT_SYNC_DAYS)
elif force and start:
    account_start = start
```

Dates are `ℤ` day numbers; a stored date is always truthy, so `not
self.<kind>_last_synced` is exactly `= none`.  The `none` result embeds the
`force=True, start=None` case, where no branch assigns the local variable and
its later use raises `NameError`. -/
def sync_kind_start : Bool → Option ℤ → Option ℤ → ℤ → ℤ → ℤ → Option ℤ
  | false, _, none, today, newDays, _ => some (today - newDays)
  | false, _, some w, _, _, existingDays => some (w - existingDays)
  | true, some st, _, _, _, _ => some st
  | true, none, _, _, _, _ => none

/-- The date-range part of the four `get_selector` static methods (e.g.
models.py lines 390-398):

```python
if not start:
    start = date.today() - timedelta(days=settings.GOOGLEADWORDS_EXISTING_ACCOUNT_SYNC_DAYS)
if not finish:
    finish = date.today() - timedelta(days=1)
```

(the campaign / ad-group / ad selectors default `start` to `today - 6`);
the ranges end up as `selector.dateRange.min/max`. -/
def get_selector_dateRange (start finish : Option ℤ) (today defaultStartDays : ℤ) : ℤ × ℤ :=
  (start.getD (today - defaultStartDays), finish.getD (today - 1))

/-- One kind's composed request range as `sync` builds it:
`create_report_file.si(<Kind>.get_selector(start=<kind>_start))`, with no
explicit finish. -/
def sync_kind_dateRange (force : Bool) (start last_synced : Option ℤ)
    (today newDays existingDays defaultStartDays : ℤ) : Option (ℤ × ℤ) :=
  (sync_kind_start force start last_synced today newDays existingDays).map
    (fun st => get_selector_dateRange (some st) none today defaultStartDays)

/-! ## `Account.spend` (claim C7) -/

inductive SpendErr
  | attributeError
  | adwordsDataInconsistency
deriving DecidableEq, Repr

/-- `getattr` on the date-valued attributes of an `Account` instance.  The
model's `DateField`s are exactly the four per-kind watermarks
(models.py lines 137-140); any other name — in particular `last_synced`,
which `spend` reads — is bound to nothing on the instance or its class, so
Python raises `AttributeError` (`none`). -/
def account_date_attr (a : AccountRec) : String → Option (Option ℤ)
  | "account_last_synced" => some a.account_last_synced
  | "campaign_last_synced" => some a.campaign_last_synced
  | "ad_group_last_synced" => some a.ad_group_last_synced
  | "ad_last_synced" => some a.ad_last_synced
  | _ => none

/-- `Account.spend(start, finish)` (models.py lines 452-469):

```python
if not self.last_synced or (self.last_synced - timedelta(days=1)) < finish:
    raise AdwordsDataInconsistency(...)
cost = self.account_metrics.filter(day__gte=start, day__lte=finish).aggregate(Sum('cost'))['cost__sum']
if cost == None:
    return 0
else:
    return cost
```

The first line reads `self.last_synced` before anything else; the `Sum`
aggregate is `None` exactly on an empty queryset. -/
def spend (db : MetricsDB) (a : AccountRec) (start finish : ℤ) : Except SpendErr ℚ :=
  match account_date_attr a "last_synced" with
  | none => .error .attributeError
  | some last_synced =>
    match last_synced with
    | none => .error .adwordsDataInconsistency
    | some w =>
      if w - 1 < finish then .error .adwordsDataInconsistency
      else
        let rows := db.accountMetrics.filter
          (fun r => r.account = a.account_id && start ≤ r.day && r.day ≤ finish)
        if rows.isEmpty then .ok 0 else .ok ((rows.map (fun r => r.cost)).sum)

/-! ## Report-file fetching (claim C8) -/

/-- One entry of `e.fault.detail.ApiExceptionFault.errors`: its
`'ApiError.Type'` attribute and its `retryAfterSeconds`. -/
structure ApiFaultError where
  errorType : String
  retryAfterSeconds : ℤ
deriving DecidableEq, Repr

/-- A `GoogleAdsError`: whether the
`fault.detail.ApiExceptionFault.errors` attribute chain is present, and the
error entries when it is. -/
structure GoogleAdsFault where
  hasApiExceptionFault : Bool
  errors : List ApiFaultError
deriving DecidableEq, Repr

/-- The outcome of `report_downloader.DownloadReport`: success, or a
`GoogleAdsError` fault (the remote API's faults, per the spec's external
interface, are structured errors of this shape). -/
inductive DownloadOutcome
  | success
  | adsError (f : GoogleAdsFault)
deriving DecidableEq, Repr

inductive RequestErr
  | rateExceeded (retryAfterSeconds : ℤ)
  | googleAdsError (f : GoogleAdsFault)
deriving DecidableEq, Repr

/-- `sum([int(fault.retryAfterSeconds) for fault in ... if getattr(fault,
'ApiError.Type') == 'RateExceededError'])`. -/
def retryAfterSum (f : GoogleAdsFault) : ℤ :=
  ((f.errors.filter (fun e => e.errorType = "RateExceededError")).map
    (fun e => e.retryAfterSeconds)).sum

/-- `ReportFile.QuerySet.request` (models.py lines 1326-1343): create a
`ReportFile` record, stream the report into it; on a `GoogleAdsError` delete
the record, then re-raise — as `RateExceededError(retryAfterSeconds)` when
the fault's rate-limit entries carry a positive total retry-after, as the
original `GoogleAdsError` otherwise (also when the fault-detail attribute
chain is absent).  The report-file table is the list of record ids; `pk` is
the id `ReportFile.objects.create()` hands the new record. -/
def request (files : List ℕ) (pk : ℕ) (outcome : DownloadOutcome) :
    List ℕ × Except RequestErr ℕ :=
  let files₁ := files ++ [pk]
  match outcome with
  | .success => (files₁, .ok pk)
  | .adsError f =>
    let files₂ := files₁.filter (fun i => i ≠ pk)
    if !f.hasApiExceptionFault then (files₂, .error (.googleAdsError f))
    else if retryAfterSum f > 0 then (files₂, .error (.rateExceeded (retryAfterSum f)))
    else (files₂, .error (.googleAdsError f))

inductive CreateReportFileErr
  | retrySignal (retryAfterSeconds : ℤ)
  | attributeError
  | interceptedGoogleAdsError (account_id : ℤ) (f : GoogleAdsFault)
deriving DecidableEq, Repr

/-- The attribute names an `Account` instance responds to: the model's fields
(with their related managers) and the class's methods as defined in
models.py.  `@task(name='Account.get_account_data')` only names the Celery
task in the worker registry; it binds no Python attribute — the decorated
method is the attribute `create_report_file`. -/
def accountAttributes : List String :=
  ["account_id", "status", "account", "currency", "account_last_synced",
   "campaign_last_synced", "ad_group_last_synced", "ad_last_synced", "created",
   "updated", "objects", "alerts", "campaigns", "account_metrics", "sync",
   "start_sync", "finish_sync", "finish_account_sync", "finish_campaign_sync",
   "finish_ad_group_sync", "finish_ad_sync", "create_report_file",
   "sync_account", "sync_campaign", "sync_ad_group", "sync_ad", "get_selector",
   "spend", "pk", "id", "STATUS_ACTIVE", "STATUS_SYNC", "STATUS_INACTIVE",
   "STATUS_CHOICES", "STATUS_CONSIDERED_ACTIVE"]

/-- `Account.create_report_file` (models.py lines 294-306):

```python
try:
    return ReportFile.objects.request(report_definition=..., client_customer_id=self.account_id)
except RateExceededError, exc:
    raise self.get_account_data.retry(exc, countdown=exc.retry_after_seconds)
except GoogleAdsError, exc:
    raise InterceptedGoogleAdsError(exc, account_id=self.account_id)
```

The rate-limit handler reads `self.get_account_data` before it can build the
Celery retry signal; if that attribute existed the call would re-raise a
`Retry` with the fault's countdown. -/
def create_report_file (account_id : ℤ) (files : List ℕ) (pk : ℕ)
    (outcome : DownloadOutcome) : List ℕ × Except CreateReportFileErr ℕ :=
  match request files pk outcome with
  | (files', .ok h) => (files', .ok h)
  | (files', .error (.rateExceeded secs)) =>
    if "get_account_data" ∈ accountAttributes then (files', .error (.retrySignal secs))
    else (files', .error .attributeError)
  | (files', .error (.googleAdsError f)) =>
    (files', .error (.interceptedGoogleAdsError account_id f))

/-! ## The multi-worker locking protocol (claim C10)

Modelled from the spec: `acquire_googleadwords_lock` / `release_googleadwords_lock`
live in `django_google_adwords.lock`, which is not part of this repository's
source tree; §4.1 of the spec specifies them as an advisory exclusive lock —
a try-acquire that atomically marks the `(kind, identifier)` pair held and
reports success, polled in the `while not acquire...: sleep(...)` loop that
every `QuerySet.populate` runs, and an unconditional release in the
`finally`.  Workers are interleaved at the granularity of these lock
operations and of the critical section's read (get-or-create plus
clean/coerce) and write (save) halves.  One fixed `(kind, key)` pair is
modelled; distinct keys have independent lock state. -/

inductive WorkerPhase
  | trying
  | reading
  | writing
  | finished
deriving DecidableEq, Repr

/-- The read-modify-write critical section of a populate call: between a
successful acquire and the release. -/
def inCriticalSection (p : WorkerPhase) : Prop := p = .reading ∨ p = .writing

/-- Shared state: who holds this key's lock, and each worker's phase. -/
structure LockProtocolState (n : ℕ) where
  holder : Option (Fin n)
  phase : Fin n → WorkerPhase

/-- Interleaved steps of `n` workers each running one populate call on the
same `(kind, key)`. -/
inductive LockStep (n : ℕ) : LockProtocolState n → LockProtocolState n → Prop
  | acquireSuccess (s : LockProtocolState n) (i : Fin n)
      (hp : s.phase i = .trying) (hfree : s.holder = none) :
      LockStep n s ⟨some i, Function.update s.phase i .reading⟩
  | acquireFail (s : LockProtocolState n) (i : Fin n)
      (hp : s.phase i = .trying) (hheld : s.holder ≠ none) :
      LockStep n s s
  | startWrite (s : LockProtocolState n) (i : Fin n) (hp : s.phase i = .reading) :
      LockStep n s ⟨s.holder, Function.update s.phase i .writing⟩
  | release (s : LockProtocolState n) (i : Fin n) (hp : s.phase i = .writing) :
      LockStep n s ⟨none, Function.update s.phase i .finished⟩

/-- States reachable from the initial one (lock free, everyone trying). -/
inductive LockReachable (n : ℕ) : LockProtocolState n → Prop
  | init : LockReachable n ⟨none, fun _ => .trying⟩
  | step {s s' : LockProtocolState n} :
      LockReachable n s → LockStep n s s' → LockReachable n s'

/-! ## Concrete fixtures for witnesses and counterexamples -/

/-- A daily-metrics schema fragment: the fields of the end-to-end scenario
rows (spec §8) as `DailyAdGroupMetrics` declares them — `cost` a `MoneyField`
with `default=0`, `clicks` an `IntegerField`, `ctr` a `DecimalField`,
`device` a `CharField`, `day` a `DateField`, plus the audit timestamps
(whose field kind populate never consults: both are in `IGNORE_FIELDS`). -/
def schemaM : Schema :=
  [("cost", ⟨.money, .num 0⟩), ("clicks", ⟨.integerF, .null⟩),
   ("ctr", ⟨.decimal, .null⟩), ("device", ⟨.charF, .null⟩),
   ("day", ⟨.dateF, .null⟩), ("created", ⟨.charF, .null⟩),
   ("updated", ⟨.charF, .null⟩)]

/-- The spec §8 end-to-end row. -/
def row1 : List (String × String) :=
  [("@device", "Computers"), ("@day", "2020-01-01"), ("@cost", "2000000"),
   ("@ctr", "1.50%"), ("@clicks", "10")]

/-- The same row with only `cost` changed to `"3000000"`. -/
def row2 : List (String × String) :=
  [("@device", "Computers"), ("@day", "2020-01-01"), ("@cost", "3000000"),
   ("@ctr", "1.50%"), ("@clicks", "10")]

def kwargsM : Kwargs := [("device", .str "Computers"), ("day", .str "2020-01-01")]

def lkM : LockKey := ⟨"DailyAdGroupMetrics", "Computers-2020-01-01"⟩

/-- The row the first populate call persists (and returns): the coerced
`row1` values plus the audit timestamps stamped at time 1 by the full save of
the freshly created entity. -/
def e1M : Entity :=
  [("cost", .num (mkRat 2 1)), ("clicks", .num (mkRat 10 1)), ("ctr", .num (mkRat 3 2)),
   ("device", .str "Computers"), ("day", .dateV 20200101),
   ("created", .num 1), ("updated", .num 1)]

/-- `e1M` after a second populate call with `row2`: only `cost` moves (to
`3.00`); in particular `updated` still carries the first call's stamp. -/
def e2M : Entity :=
  [("cost", .num (mkRat 3 1)), ("clicks", .num (mkRat 10 1)), ("ctr", .num (mkRat 3 2)),
   ("device", .str "Computers"), ("day", .dateV 20200101),
   ("created", .num 1), ("updated", .num 1)]

/-- State after populating `row1` into an empty store at time 1. -/
def s1M : DBState := ⟨[], [(kwargsM, e1M)]⟩

/-- State after then populating `row2` at time 2. -/
def s2M : DBState := ⟨[], [(kwargsM, e2M)]⟩

/-- A lock-protocol state with worker 0 inside its critical section. -/
def lockStateM : LockProtocolState 2 :=
  ⟨some 0, Function.update (fun _ => .trying) 0 .reading⟩

/-- A two-field schema for the attribute-collision scenario. -/
def schemaX : Schema :=
  [("some_id", ⟨.integerF, .null⟩), ("a_b", ⟨.charF, .null⟩)]

/-- A row whose two attribute names `@aB` and `@a_b` both map to the internal
field `a_b` — a legal dict, since its keys are distinct. -/
def rowX : List (String × String) := [("@aB", "1"), ("@a_b", "2")]

def kwargsX : Kwargs := [("some_id", .num (mkRat 1 1))]

def lkX : LockKey := ⟨"X", "1"⟩

/-- The row the first `rowX` populate persists. -/
def eX : Entity := [("some_id", .num (mkRat 1 1)), ("a_b", .str "2")]

/-- State after populating `rowX` into an empty store. -/
def sX1 : DBState := ⟨[], [(kwargsX, eX)]⟩

/-- A fault whose only error entry is a rate limit with a 30s retry-after. -/
def rateFaultM : GoogleAdsFault := ⟨true, [⟨"RateExceededError", 30⟩]⟩

/-- A structured fault with no rate-limit entry. -/
def otherFaultM : GoogleAdsFault := ⟨true, [⟨"QuotaCheckError", 0⟩]⟩

/-! ## Association-list lemmas -/

theorem alookup_aset_self {α β : Type} [DecidableEq α] (l : List (α × β)) (x : α) (v : β) :
    alookup (aset l x v) x = some v := by
  induction l with
  | nil => simp [aset, alookup]
  | cons ab l ih =>
    obtain ⟨a, b⟩ := ab
    by_cases h : a = x
    · simp [aset, h, alookup]
    · simp [aset, h, alookup, ih]

theorem alookup_aset_ne {α β : Type} [DecidableEq α] (l : List (α × β)) (x y : α) (v : β)
    (h : y ≠ x) : alookup (aset l x v) y = alookup l y := by
  induction l with
  | nil => simp [aset, alookup, Ne.symm h]
  | cons ab l ih =>
    obtain ⟨a, b⟩ := ab
    by_cases hax : a = x
    · subst hax
      simp [aset, alookup, Ne.symm h]
    · simp [aset, hax, alookup, ih]

theorem aset_eq_self {α β : Type} [DecidableEq α] (l : List (α × β)) (x : α) (v : β)
    (h : alookup l x = some v) : aset l x v = l := by
  induction l with
  | nil => simp [alookup] at h
  | cons ab l ih =>
    obtain ⟨a, b⟩ := ab
    by_cases hax : a = x
    · subst hax
      have hb : b = v := by simpa [alookup] using h
      subst hb
      simp [aset]
    · simp only [alookup, if_neg hax] at h
      simp [aset, hax, ih h]

theorem get_attr_set_attr_self (e : Entity) (f : String) (v : Value) :
    get_attr (set_attr e f v) f = v := by
  simp [get_attr, set_attr, alookup_aset_self]

theorem get_attr_set_attr_ne (e : Entity) (f g : String) (v : Value) (h : g ≠ f) :
    get_attr (set_attr e f v) g = get_attr e g := by
  simp [get_attr, set_attr, alookup_aset_ne _ _ _ _ h]

theorem alookup_keyed_map {β γ : Type} (l : List (String × β)) (F : String → γ) (x : String) :
    alookup (l.map (fun nfs => (nfs.1, F nfs.1))) x = (alookup l x).map (fun _ => F x) := by
  induction l with
  | nil => rfl
  | cons ab l ih =>
    obtain ⟨a, b⟩ := ab
    by_cases h : a = x
    · subst h
      simp [alookup]
    · simp [alookup, h, ih]

theorem get_attr_keyed_map {β : Type} (l : List (String × β)) (F : String → Value) (x : String)
    (h : ∃ b, alookup l x = some b) :
    get_attr (l.map (fun nfs => (nfs.1, F nfs.1))) x = F x := by
  obtain ⟨b, hb⟩ := h
  simp [get_attr, alookup_keyed_map l F x, hb]

theorem get_attr_saveUpdate {schema : Schema} {f : String} {fs : FieldSpec}
    (old model : Entity) (ufs : List String) (now : ℚ) (hf : alookup schema f = some fs) :
    get_attr (saveUpdate schema old model ufs now) f =
      if f ∈ ufs then (if f = "updated" then .num now else get_attr model f)
      else get_attr old f :=
  get_attr_keyed_map schema
    (fun g => if g ∈ ufs then (if g = "updated" then Value.num now else get_attr model g)
      else get_attr old g) f ⟨fs, hf⟩

theorem get_attr_saveNew {schema : Schema} {f : String} {fs : FieldSpec}
    (model : Entity) (now : ℚ) (hf : alookup schema f = some fs) :
    get_attr (saveNew schema model now) f =
      if f = "created" ∨ f = "updated" then .num now else get_attr model f :=
  get_attr_keyed_map schema
    (fun g => if g = "created" ∨ g = "updated" then Value.num now else get_attr model g) f ⟨fs, hf⟩

/-! ## Lemmas about the populate loop -/

/-- The loop's step on one entry is decided by that entry's `entryOut`. -/
theorem populateLoop_cons (schema : Schema) (tp : ToPython) (ign : List String)
    (k v : String) (rest : List (String × String)) (model : Entity) (ufs : List String) :
    populateLoop schema tp ign ((k, v) :: rest) model ufs =
      match entryOut schema tp ign (k, v) with
      | .skipped => populateLoop schema tp ign rest model ufs
      | .failClean => .error .valueError
      | .failCoerce f msgs => .error (.validation f msgs)
      | .val f w =>
        if w ≠ get_attr model f then
          populateLoop schema tp ign rest (set_attr model f w) (ufs ++ [f])
        else populateLoop schema tp ign rest model ufs := by
  simp only [populateLoop, entryOut]
  by_cases hig : attribute_to_field_name k ∈ IGNORE_FIELDS ∨ attribute_to_field_name k ∈ ign
  · simp [hig]
  · simp only [if_neg hig]
    cases hsch : alookup schema (attribute_to_field_name k) with
    | none => simp
    | some fs =>
      cases hcl : clean v fs.kind with
      | none => simp [hcl]
      | some cleaned =>
        cases htp : tp fs.kind cleaned with
        | error msgs => simp [hcl, htp]
        | ok value =>
          by_cases hne : value = get_attr model (attribute_to_field_name k) <;>
            simp [hcl, htp, hne]

/-- A `.val` outcome names the entry's mapped field, which is neither ignored
nor outside the schema. -/
theorem entryOut_val_facts {schema : Schema} {tp : ToPython} {ign : List String}
    {kv : String × String} {f : String} {v : Value}
    (h : entryOut schema tp ign kv = .val f v) :
    f = attribute_to_field_name kv.1 ∧ f ∉ IGNORE_FIELDS ∧ f ∉ ign ∧
      ∃ fs, alookup schema f = some fs := by
  obtain ⟨k, raw⟩ := kv
  simp only [entryOut] at h
  by_cases hig : attribute_to_field_name k ∈ IGNORE_FIELDS ∨ attribute_to_field_name k ∈ ign
  · simp [hig] at h
  · simp only [if_neg hig] at h
    cases hsch : alookup schema (attribute_to_field_name k) with
    | none => simp [hsch] at h
    | some fs =>
      simp only [hsch] at h
      cases hcl : clean raw fs.kind with
      | none => simp [hcl] at h
      | some cleaned =>
        simp only [hcl] at h
        cases htp : tp fs.kind cleaned with
        | error msgs => simp [htp] at h
        | ok value =>
          simp only [htp, EntryOut.val.injEq] at h
          obtain ⟨rfl, rfl⟩ := h
          push_neg at hig
          exact ⟨rfl, hig.1, hig.2, fs, hsch⟩

/-- A successful loop run means no entry failed cleaning or coercion. -/
theorem populateLoop_ok_no_fail {schema : Schema} {tp : ToPython} {ign : List String}
    {data : List (String × String)} {model : Entity} {ufs : List String}
    {r : Entity × List String}
    (h : populateLoop schema tp ign data model ufs = .ok r) :
    ∀ kv ∈ data, entryOut schema tp ign kv ≠ .failClean ∧
      ∀ f msgs, entryOut schema tp ign kv ≠ .failCoerce f msgs := by
  induction data generalizing model ufs r with
  | nil => simp
  | cons kv rest ih =>
    obtain ⟨k, raw⟩ := kv
    rw [populateLoop_cons] at h
    intro kv' hkv'
    rcases List.mem_cons.mp hkv' with rfl | hmem
    · cases heo : entryOut schema tp ign (k, raw) <;> simp [heo] at h ⊢
    · cases heo : entryOut schema tp ign (k, raw) <;> simp only [heo] at h
      · exact ih h kv' hmem
      · exact absurd h (by simp)
      · exact absurd h (by simp)
      · split at h
        · exact ih h kv' hmem
        · exact ih h kv' hmem

/-- Fields outside the data's mapped field names are untouched by the loop. -/
theorem populateLoop_frame_unmapped {schema : Schema} {tp : ToPython} {ign : List String}
    {data : List (String × String)} {model model' : Entity} {ufs ufs' : List String}
    (h : populateLoop schema tp ign data model ufs = .ok (model', ufs')) :
    ∀ f, f ∉ mappedFields data → get_attr model' f = get_attr model f := by
  induction data generalizing model ufs with
  | nil =>
    simp only [populateLoop, Except.ok.injEq, Prod.mk.injEq] at h
    intro f _
    rw [h.1]
  | cons kv rest ih =>
    obtain ⟨k, raw⟩ := kv
    rw [populateLoop_cons] at h
    intro f hf
    simp only [mappedFields, List.map_cons, List.mem_cons, not_or] at hf
    obtain ⟨hfk, hfrest⟩ := hf
    cases heo : entryOut schema tp ign (k, raw) <;> simp only [heo] at h
    · exact ih h f hfrest
    · exact absurd h (by simp)
    · exact absurd h (by simp)
    case val g w =>
      have hg : g = attribute_to_field_name k := (entryOut_val_facts heo).1
      split at h
      · rw [ih h f hfrest, get_attr_set_attr_ne]
        exact fun hfg => hfk (hfg.trans hg)
      · exact ih h f hfrest

/-- `update_fields` grows by fields of `.val` entries only. -/
theorem populateLoop_ufs_grow {schema : Schema} {tp : ToPython} {ign : List String}
    {data : List (String × String)} {model model' : Entity} {ufs₀ ufs' : List String}
    (h : populateLoop schema tp ign data model ufs₀ = .ok (model', ufs')) :
    ∃ Δ, ufs' = ufs₀ ++ Δ ∧
      ∀ f ∈ Δ, ∃ kv ∈ data, ∃ v, entryOut schema tp ign kv = .val f v := by
  induction data generalizing model ufs₀ with
  | nil =>
    simp only [populateLoop, Except.ok.injEq, Prod.mk.injEq] at h
    exact ⟨[], by simp [h.2], by simp⟩
  | cons kv rest ih =>
    obtain ⟨k, raw⟩ := kv
    rw [populateLoop_cons] at h
    cases heo : entryOut schema tp ign (k, raw) <;> simp only [heo] at h
    · obtain ⟨Δ, hΔ, hmem⟩ := ih h
      exact ⟨Δ, hΔ, fun f hf => by
        obtain ⟨kv', hkv', v, hv⟩ := hmem f hf
        exact ⟨kv', List.mem_cons_of_mem _ hkv', v, hv⟩⟩
    · exact absurd h (by simp)
    · exact absurd h (by simp)
    case val g w =>
      split at h
      · obtain ⟨Δ, hΔ, hmem⟩ := ih h
        refine ⟨g :: Δ, by simp [hΔ], fun f hf => ?_⟩
        rcases List.mem_cons.mp hf with rfl | hf'
        · exact ⟨(k, raw), List.mem_cons_self _ _, w, heo⟩
        · obtain ⟨kv', hkv', v, hv⟩ := hmem f hf'
          exact ⟨kv', List.mem_cons_of_mem _ hkv', v, hv⟩
      · obtain ⟨Δ, hΔ, hmem⟩ := ih h
        exact ⟨Δ, hΔ, fun f hf => by
          obtain ⟨kv', hkv', v, hv⟩ := hmem f hf
          exact ⟨kv', List.mem_cons_of_mem _ hkv', v, hv⟩⟩

/-- A field absent from the final `update_fields` keeps its initial value on
the in-memory model. -/
theorem populateLoop_frame_not_ufs {schema : Schema} {tp : ToPython} {ign : List String}
    {data : List (String × String)} {model model' : Entity} {ufs₀ ufs' : List String}
    (h : populateLoop schema tp ign data model ufs₀ = .ok (model', ufs')) :
    ∀ f, f ∉ ufs' → get_attr model' f = get_attr model f := by
  induction data generalizing model ufs₀ with
  | nil =>
    simp only [populateLoop, Except.ok.injEq, Prod.mk.injEq] at h
    intro f _
    rw [h.1]
  | cons kv rest ih =>
    obtain ⟨k, raw⟩ := kv
    rw [populateLoop_cons] at h
    intro f hf
    cases heo : entryOut schema tp ign (k, raw) <;> simp only [heo] at h
    · exact ih h f hf
    · exact absurd h (by simp)
    · exact absurd h (by simp)
    case val g w =>
      split at h
      · have hg : g ∈ ufs' := by
          obtain ⟨Δ, hΔ, _⟩ := populateLoop_ufs_grow h
          simp [hΔ]
        rw [ih h f hf, get_attr_set_attr_ne]
        exact fun hfg => hf (hfg ▸ hg)
      · exact ih h f hf

/-- With pairwise-distinct mapped field names, every `.val` entry's value is
what the final in-memory model carries for its field. -/
theorem populateLoop_val_get {schema : Schema} {tp : ToPython} {ign : List String}
    {data : List (String × String)} {model model' : Entity} {ufs₀ ufs' : List String}
    (hnd : (mappedFields data).Nodup)
    (h : populateLoop schema tp ign data model ufs₀ = .ok (model', ufs')) :
    ∀ kv ∈ data, ∀ f v, entryOut schema tp ign kv = .val f v → get_attr model' f = v := by
  induction data generalizing model ufs₀ with
  | nil => simp
  | cons kv rest ih =>
    obtain ⟨k, raw⟩ := kv
    rw [populateLoop_cons] at h
    simp only [mappedFields, List.map_cons, List.nodup_cons] at hnd
    obtain ⟨hknotin, hndrest⟩ := hnd
    intro kv' hkv' f v hval
    rcases List.mem_cons.mp hkv' with rfl | hmem
    · -- the head entry itself
      simp only [hval] at h
      have hfacts := entryOut_val_facts hval
      have hfk : f = attribute_to_field_name k := hfacts.1
      have hfnotin : f ∉ mappedFields rest := hfk ▸ hknotin
      split at h
      · rw [populateLoop_frame_unmapped h f hfnotin, get_attr_set_attr_self]
      · rw [populateLoop_frame_unmapped h f hfnotin]
        next hne => exact (not_not.mp hne).symm ▸ rfl
    · cases heo : entryOut schema tp ign (k, raw) <;> simp only [heo] at h
      · exact ih hndrest h kv' hmem f v hval
      · exact absurd h (by simp)
      · exact absurd h (by simp)
      · split at h
        · exact ih hndrest h kv' hmem f v hval
        · exact ih hndrest h kv' hmem f v hval

/-- With pairwise-distinct mapped field names, the final `update_fields` are
exactly the initial ones plus the fields whose coerced value differs from the
initial model's value. -/
theorem populateLoop_ufs_iff {schema : Schema} {tp : ToPython} {ign : List String}
    {data : List (String × String)} {model model' : Entity} {ufs₀ ufs' : List String}
    (hnd : (mappedFields data).Nodup)
    (h : populateLoop schema tp ign data model ufs₀ = .ok (model', ufs')) :
    ∀ f, f ∈ ufs' ↔ f ∈ ufs₀ ∨
      ∃ kv ∈ data, ∃ v, entryOut schema tp ign kv = .val f v ∧ v ≠ get_attr model f := by
  induction data generalizing model ufs₀ with
  | nil =>
    simp only [populateLoop, Except.ok.injEq, Prod.mk.injEq] at h
    intro f
    simp [← h.2]
  | cons kv rest ih =>
    obtain ⟨k, raw⟩ := kv
    rw [populateLoop_cons] at h
    simp only [mappedFields, List.map_cons, List.nodup_cons] at hnd
    obtain ⟨hknotin, hndrest⟩ := hnd
    intro f
    cases heo : entryOut schema tp ign (k, raw) <;> simp only [heo] at h
    · rw [ih hndrest h f]
      constructor
      · rintro (h₀ | ⟨kv', hkv', v, hv, hne⟩)
        · exact Or.inl h₀
        · exact Or.inr ⟨kv', List.mem_cons_of_mem _ hkv', v, hv, hne⟩
      · rintro (h₀ | ⟨kv', hkv', v, hv, hne⟩)
        · exact Or.inl h₀
        · rcases List.mem_cons.mp hkv' with rfl | hmem
          · rw [heo] at hv
            exact absurd hv (by simp)
          · exact Or.inr ⟨kv', hmem, v, hv, hne⟩
    · exact absurd h (by simp)
    · exact absurd h (by simp)
    case val g w =>
      have hg : g = attribute_to_field_name k := (entryOut_val_facts heo).1
      have hgnotin : g ∉ mappedFields rest := hg ▸ hknotin
      split at h
      case isTrue hne =>
        rw [ih hndrest h f]
        by_cases hfg : f = g
        · subst hfg
          constructor
          · intro _
            exact Or.inr ⟨(k, raw), List.mem_cons_self _ _, w, heo, hne⟩
          · intro _
            exact Or.inl (by simp)
        · have hget : get_attr (set_attr model g w) f = get_attr model f :=
            get_attr_set_attr_ne _ _ _ _ hfg
          constructor
          · rintro (h₀ | ⟨kv', hkv', v, hv, hvne⟩)
            · rcases List.mem_append.mp h₀ with h₀ | h₀
              · exact Or.inl h₀
              · exact absurd (List.mem_singleton.mp h₀) hfg
            · exact Or.inr ⟨kv', List.mem_cons_of_mem _ hkv', v, hv, hget ▸ hvne⟩
          · rintro (h₀ | ⟨kv', hkv', v, hv, hvne⟩)
            · exact Or.inl (List.mem_append.mpr (Or.inl h₀))
            · rcases List.mem_cons.mp hkv' with rfl | hmem
              · rw [heo] at hv
                simp only [EntryOut.val.injEq] at hv
                exact absurd hv.1.symm hfg
              · exact Or.inr ⟨kv', hmem, v, hv, hget ▸ hvne⟩
      case isFalse hne =>
        have hw : w = get_attr model g := not_not.mp hne
        rw [ih hndrest h f]
        constructor
        · rintro (h₀ | ⟨kv', hkv', v, hv, hvne⟩)
          · exact Or.inl h₀
          · exact Or.inr ⟨kv', List.mem_cons_of_mem _ hkv', v, hv, hvne⟩
        · rintro (h₀ | ⟨kv', hkv', v, hv, hvne⟩)
          · exact Or.inl h₀
          · rcases List.mem_cons.mp hkv' with rfl | hmem
            · rw [heo] at hv
              simp only [EntryOut.val.injEq] at hv
              obtain ⟨rfl, rfl⟩ := hv
              exact absurd hw hvne
            · exact Or.inr ⟨kv', hmem, v, hv, hvne⟩

/-- A model that already agrees with every entry's coerced value (and a data
dict with no failing entry) passes through the loop unchanged with no field
marked changed. -/
theorem populateLoop_fixed {schema : Schema} {tp : ToPython} {ign : List String}
    {data : List (String × String)} {model : Entity} {ufs₀ : List String}
    (hagree : ∀ kv ∈ data, ∀ f v, entryOut schema tp ign kv = .val f v → get_attr model f = v)
    (hok : ∀ kv ∈ data, entryOut schema tp ign kv ≠ .failClean ∧
      ∀ f msgs, entryOut schema tp ign kv ≠ .failCoerce f msgs) :
    populateLoop schema tp ign data model ufs₀ = .ok (model, ufs₀) := by
  induction data with
  | nil => rfl
  | cons kv rest ih =>
    obtain ⟨k, raw⟩ := kv
    rw [populateLoop_cons]
    have htail : populateLoop schema tp ign rest model ufs₀ = .ok (model, ufs₀) :=
      ih (fun kv' h' => hagree kv' (List.mem_cons_of_mem _ h'))
        (fun kv' h' => hok kv' (List.mem_cons_of_mem _ h'))
    cases heo : entryOut schema tp ign (k, raw)
    · exact htail
    · exact absurd heo ((hok _ (List.mem_cons_self _ _)).1)
    · exact absurd heo ((hok _ (List.mem_cons_self _ _)).2 _ _)
    case val g w =>
      have : get_attr model g = w := hagree _ (List.mem_cons_self _ _) g w heo
      simp [this, htail]

/-! ## Lock bookkeeping lemmas -/

theorem filter_ne_of_not_mem {α : Type} [DecidableEq α] (L : List α) (x : α) (h : x ∉ L) :
    L.filter (fun k => k ≠ x) = L := by
  induction L with
  | nil => rfl
  | cons a L ih =>
    simp only [List.mem_cons, not_or] at h
    have hax : ¬(a = x) := fun e => h.1 e.symm
    rw [List.filter_cons, if_pos (by simp [hax]), ih h.2]

theorem releaseLock_acquireLock_store (s : DBState) (lk : LockKey) (store' : Store)
    (h : lk ∉ s.locks) :
    releaseLock { acquireLock s lk with store := store' } lk =
      { locks := s.locks, store := store' } := by
  obtain ⟨L, st⟩ := s
  simp only [acquireLock, releaseLock]
  congr 1
  rw [List.filter_cons, if_neg (by simp), filter_ne_of_not_mem L lk h]

theorem releaseLock_acquireLock (s : DBState) (lk : LockKey) (h : lk ∉ s.locks) :
    releaseLock (acquireLock s lk) lk = s := by
  obtain ⟨L, st⟩ := s
  exact releaseLock_acquireLock_store ⟨L, st⟩ lk st h

theorem releaseLock_cons (L : List LockKey) (st : Store) (lk : LockKey) (h : lk ∉ L) :
    releaseLock ⟨lk :: L, st⟩ lk = ⟨L, st⟩ := by
  simp only [releaseLock]
  congr 1
  rw [List.filter_cons, if_neg (by simp), filter_ne_of_not_mem L lk h]

/-! ## Saved-row lemmas -/

theorem alookup_isSome_of_mem {α β : Type} [DecidableEq α] {l : List (α × β)} {ab : α × β}
    (h : ab ∈ l) : ∃ c, alookup l ab.1 = some c := by
  induction l with
  | nil => cases h
  | cons xy l ih =>
    obtain ⟨x, y⟩ := xy
    by_cases hx : x = ab.1
    · exact ⟨y, by simp [alookup, hx]⟩
    · rcases List.mem_cons.mp h with rfl | h'
      · exact absurd rfl hx
      · obtain ⟨c, hc⟩ := ih h'
        exact ⟨c, by simp [alookup, hx, hc]⟩

/-- Saving with an empty `update_fields` list rewrites a schema-shaped row to
itself (the no-op Django makes of `save(update_fields=[])`). -/
theorem saveUpdate_nil_keyed (schema : Schema) (F : String → Value) (model' : Entity)
    (now' : ℚ) :
    saveUpdate schema (schema.map (fun nfs => (nfs.1, F nfs.1))) model' [] now' =
      schema.map (fun nfs => (nfs.1, F nfs.1)) := by
  unfold saveUpdate
  apply List.map_congr_left
  intro nfs hmem
  have hget : get_attr (schema.map (fun nfs => (nfs.1, F nfs.1))) nfs.1 = F nfs.1 :=
    get_attr_keyed_map schema F nfs.1 (alookup_isSome_of_mem hmem)
  simp [hget]

theorem saveUpdate_keyed (schema : Schema) (old model : Entity) (ufs : List String)
    (now : ℚ) :
    saveUpdate schema old model ufs now = schema.map (fun nfs => (nfs.1,
      (fun g => if g ∈ ufs then (if g = "updated" then Value.num now else get_attr model g)
        else get_attr old g) nfs.1)) := rfl

theorem saveNew_keyed (schema : Schema) (model : Entity) (now : ℚ) :
    saveNew schema model now = schema.map (fun nfs => (nfs.1,
      (fun g => if g = "created" ∨ g = "updated" then Value.num now else get_attr model g)
        nfs.1)) := rfl

/-! ## `List.max?` characterization over ℤ -/

theorem int_max?_eq_some_iff (l : List ℤ) (d : ℤ) :
    l.max? = some d ↔ d ∈ l ∧ ∀ x ∈ l, x ≤ d := by
  have : Std.Antisymm (α := ℤ) (· ≤ ·) := ⟨@fun a b h h' => le_antisymm h h'⟩
  rw [List.max?_eq_some_iff]
  · exact fun a => le_refl a
  · exact fun a b => max_choice a b
  · exact fun a b c => max_le_iff

/-! ## Dissecting a successful locked populate call -/

/-- A successful `populate` call is one of: an update of the row stored at
the kwargs, saved with `save(update_fields=...)`; or the full save of a
newly constructed row.  Either way the lock table ends as it began. -/
theorem populate_ok_cases
    {schema : Schema} {tp : ToPython} {ign : List String} {lk : LockKey}
    {kwargs : Kwargs} {data : List (String × String)} {now : ℚ} {s : DBState}
    {m₁ : Entity} {ufs₁ : List String} {s₁ : DBState}
    (hlk : lk ∉ s.locks)
    (h1 : populate schema tp ign lk kwargs data now s = (.ok (m₁, ufs₁), s₁)) :
    (∃ m₀, alookup s.store kwargs = some m₀ ∧
      populateLoop schema tp ign data m₀ [] = .ok (m₁, ufs₁) ∧
      s₁ = ⟨s.locks, aset s.store kwargs (saveUpdate schema m₀ m₁ ufs₁ now)⟩) ∨
    (∃ model, alookup s.store kwargs = none ∧
      populateLoop schema tp ign data (newModel schema kwargs) [] = .ok (model, ufs₁) ∧
      m₁ = saveNew schema model now ∧
      s₁ = ⟨s.locks, aset s.store kwargs (saveNew schema model now)⟩) := by
  simp only [populate, low_populate, populate_model_from_dict, acquireLock] at h1
  cases hsk : alookup s.store kwargs with
  | some m₀ =>
    simp only [hsk] at h1
    cases hloop : populateLoop schema tp ign data m₀ [] with
    | error e =>
      simp [hloop] at h1
    | ok r =>
      obtain ⟨model, ufs⟩ := r
      simp only [hloop] at h1
      rw [releaseLock_cons s.locks _ lk hlk] at h1
      simp only [Prod.mk.injEq, Except.ok.injEq] at h1
      obtain ⟨⟨hm, hu⟩, hst⟩ := h1
      subst hm
      subst hu
      subst hst
      exact Or.inl ⟨m₀, rfl, hloop, rfl⟩
  | none =>
    simp only [hsk] at h1
    cases hloop : populateLoop schema tp ign data (newModel schema kwargs) [] with
    | error e =>
      simp [hloop] at h1
    | ok r =>
      obtain ⟨model, ufs⟩ := r
      simp only [hloop] at h1
      rw [releaseLock_cons s.locks _ lk hlk] at h1
      simp only [Prod.mk.injEq, Except.ok.injEq] at h1
      obtain ⟨⟨hm, hu⟩, hst⟩ := h1
      subst hm
      subst hu
      subst hst
      exact Or.inr ⟨model, rfl, rfl, rfl, rfl⟩

/-- The fields the loop marks changed are non-ignored schema fields; in
particular neither `created` nor `updated` is ever among them. -/
theorem populateLoop_ufs_facts
    {schema : Schema} {tp : ToPython} {ign : List String}
    {data : List (String × String)} {model model' : Entity} {ufs : List String}
    (hloop : populateLoop schema tp ign data model [] = .ok (model', ufs)) :
    ∀ f ∈ ufs, f ∉ IGNORE_FIELDS ∧ ∃ fs, alookup schema f = some fs := by
  intro f hf
  obtain ⟨Δ, hΔ, hval⟩ := populateLoop_ufs_grow hloop
  rw [hΔ, List.nil_append] at hf
  obtain ⟨kv, _, v, hv⟩ := hval f hf
  obtain ⟨_, hnotig, _, hfs⟩ := entryOut_val_facts hv
  exact ⟨hnotig, hfs⟩

/-- After an update-path save, every `.val` entry's coerced value is what the
persisted row carries for its field. -/
theorem saveUpdate_agrees
    {schema : Schema} {tp : ToPython} {ign : List String}
    {data : List (String × String)} {m₀ model : Entity} {ufs : List String} {now : ℚ}
    (hnd : (mappedFields data).Nodup)
    (hloop : populateLoop schema tp ign data m₀ [] = .ok (model, ufs)) :
    ∀ kv ∈ data, ∀ g v, entryOut schema tp ign kv = .val g v →
      get_attr (saveUpdate schema m₀ model ufs now) g = v := by
  intro kv hkv g v hval
  obtain ⟨_, hgnotIG, _, fs, hschema⟩ := entryOut_val_facts hval
  have hmodel : get_attr model g = v := populateLoop_val_get hnd hloop kv hkv g v hval
  have hupd : g ≠ "updated" := fun hgu => hgnotIG (by simp [IGNORE_FIELDS, hgu])
  rw [get_attr_saveUpdate m₀ model ufs now hschema]
  by_cases hin : g ∈ ufs
  · simp [hin, hupd, hmodel]
  · have hframe := populateLoop_frame_not_ufs hloop g hin
    simp only [hin, if_false]
    rw [← hframe]
    exact hmodel

/-- After a create-path save, every `.val` entry's coerced value is what the
persisted row carries for its field. -/
theorem saveNew_agrees
    {schema : Schema} {tp : ToPython} {ign : List String}
    {data : List (String × String)} {kwargs : Kwargs} {model : Entity}
    {ufs : List String} {now : ℚ}
    (hnd : (mappedFields data).Nodup)
    (hloop : populateLoop schema tp ign data (newModel schema kwargs) [] = .ok (model, ufs)) :
    ∀ kv ∈ data, ∀ g v, entryOut schema tp ign kv = .val g v →
      get_attr (saveNew schema model now) g = v := by
  intro kv hkv g v hval
  obtain ⟨_, hgnotIG, _, fs, hschema⟩ := entryOut_val_facts hval
  have hmodel : get_attr model g = v := populateLoop_val_get hnd hloop kv hkv g v hval
  have hcr : ¬(g = "created" ∨ g = "updated") := by
    rintro (rfl | rfl) <;> exact hgnotIG (by simp [IGNORE_FIELDS])
  rw [get_attr_saveNew model now hschema, if_neg hcr]
  exact hmodel

/-- A populate call on a store whose row at the kwargs is schema-shaped and
already agrees with every entry's coerced value (and whose data has no
failing entry) returns that row with an empty changed-field list and leaves
the state untouched. -/
theorem populate_fixed_of_agree
    {schema : Schema} {tp : ToPython} {ign : List String} {lk : LockKey}
    {kwargs : Kwargs} {data : List (String × String)} {now : ℚ} {s : DBState}
    {e : Entity} (F : String → Value)
    (hlk : lk ∉ s.locks)
    (hsk : alookup s.store kwargs = some e)
    (hkeyed : e = schema.map (fun nfs => (nfs.1, F nfs.1)))
    (hagree : ∀ kv ∈ data, ∀ g v, entryOut schema tp ign kv = .val g v → get_attr e g = v)
    (hnofail : ∀ kv ∈ data, entryOut schema tp ign kv ≠ .failClean ∧
      ∀ f msgs, entryOut schema tp ign kv ≠ .failCoerce f msgs) :
    populate schema tp ign lk kwargs data now s = (.ok (e, []), s) := by
  have hfixed : populateLoop schema tp ign data e [] = .ok (e, []) :=
    populateLoop_fixed hagree hnofail
  have hsave : saveUpdate schema e e [] now = e := by
    subst hkeyed
    exact saveUpdate_nil_keyed schema F _ now
  simp only [populate, low_populate, populate_model_from_dict, acquireLock]
  simp only [hsk, hfixed, hsave, aset_eq_self s.store kwargs e hsk]
  rw [releaseLock_cons s.locks s.store lk hlk]

/-! ## Regex-pass lemmas for the name mangler (claim C9) -/

/-- An upper-case ASCII letter is not lower-case (`'a' > 'Z'`). -/
theorem isLower_eq_false_of_isUpper {c : Char} (h : isUpper c = true) :
    isLower c = false := by
  cases hl : isLower c with
  | false => rfl
  | true =>
    exfalso
    simp only [isUpper, Bool.and_eq_true, decide_eq_true_eq] at h
    simp only [isLower, Bool.and_eq_true, decide_eq_true_eq] at hl
    exact absurd (le_trans hl.1 h.2) (by decide)

/-- A lower-case ASCII letter is not upper-case. -/
theorem isUpper_eq_false_of_isLower {c : Char} (h : isLower c = true) :
    isUpper c = false := by
  cases hu : isUpper c with
  | false => rfl
  | true =>
    exfalso
    simp only [isLower, Bool.and_eq_true, decide_eq_true_eq] at h
    simp only [isUpper, Bool.and_eq_true, decide_eq_true_eq] at hu
    exact absurd (le_trans h.1 hu.2) (by decide)

theorem length_dropWhile_le (p : Char → Bool) (l : List Char) :
    (l.dropWhile p).length ≤ l.length := by
  induction l with
  | nil => simp [List.dropWhile]
  | cons a l ih =>
    rw [List.dropWhile_cons]
    split
    · exact Nat.le_succ_of_le ih
    · exact le_refl _

/-- `takeWhile` swallows a run on which `p` holds throughout. -/
theorem takeWhile_all_append (p : Char → Bool) (u rest : List Char)
    (hu : ∀ x ∈ u, p x = true) (hrest : rest.takeWhile p = []) :
    (u ++ rest).takeWhile p = u := by
  induction u with
  | nil => simpa using hrest
  | cons a u' ih =>
    rw [List.cons_append, List.takeWhile_cons, if_pos (hu a (by simp))]
    rw [ih (fun x hx => hu x (by simp [hx]))]

/-- `dropWhile` drops a run on which `p` holds throughout. -/
theorem dropWhile_all_append (p : Char → Bool) (u rest : List Char)
    (hu : ∀ x ∈ u, p x = true) (hrest : rest.dropWhile p = rest) :
    (u ++ rest).dropWhile p = rest := by
  induction u with
  | nil => simpa using hrest
  | cons a u' ih =>
    rw [List.cons_append, List.dropWhile_cons, if_pos (hu a (by simp))]
    exact ih (fun x hx => hu x (by simp [hx]))

theorem fcsAux_nil (f : Nat) : firstCapSubAux f [] = [] := by
  cases f <;> rfl

theorem fcsAux_single (f : Nat) (c : Char) : firstCapSubAux f [c] = [c] := by
  cases f <;> rfl

/-- The fuel argument of `firstCapSubAux` is irrelevant as long as it is at
least the list length: the recursion consumes at least one character per
step. -/
theorem fcsAux_congr : ∀ (f₁ : Nat) (l : List Char) (f₂ : Nat),
    l.length ≤ f₁ → l.length ≤ f₂ → firstCapSubAux f₁ l = firstCapSubAux f₂ l := by
  intro f₁
  induction f₁ with
  | zero =>
    intro l f₂ h₁ _
    have hl : l = [] := List.eq_nil_of_length_eq_zero (Nat.le_zero.mp h₁)
    subst hl
    rw [fcsAux_nil, fcsAux_nil]
  | succ f ih =>
    intro l f₂ h₁ h₂
    match l with
    | [] => rw [fcsAux_nil, fcsAux_nil]
    | [c] => rw [fcsAux_single, fcsAux_single]
    | c₁ :: c₂ :: rest =>
      match f₂ with
      | 0 => simp at h₂
      | f₂' + 1 =>
        simp only [List.length_cons] at h₁ h₂
        have hr : rest.length ≤ f := by omega
        have hr₂ : rest.length ≤ f₂' := by omega
        simp only [firstCapSubAux]
        split
        · have hd := length_dropWhile_le isLower rest
          rw [ih (rest.dropWhile isLower) f₂' (le_trans hd hr) (le_trans hd hr₂)]
        · rw [ih (c₂ :: rest) f₂' (by simp; omega) (by simp; omega)]

/-- The first pass steps over a character whose two-character lookahead is
not an upper-lower pair. -/
theorem firstCapSub_cons_no (c c₂ : Char) (rest : List Char)
    (h : (isUpper c₂ && isLower (rest.headD ' ')) = false) :
    firstCapSub (c :: c₂ :: rest) = c :: firstCapSub (c₂ :: rest) := by
  show firstCapSubAux (rest.length + 1 + 1) (c :: c₂ :: rest) = _
  simp only [firstCapSubAux, h]
  rfl

/-- The first pass fires on `(.)([A-Z][a-z]+)`: it inserts an underscore
after the donor character `c` and consumes the capital and its lower run
whole, resuming after them. -/
theorem firstCapSub_trigger (c C : Char) (u rest : List Char)
    (hC : isUpper C = true) (hu : u ≠ []) (hlow : ∀ x ∈ u, isLower x = true)
    (hrest : rest = [] ∨ isUpper (rest.headD ' ') = true) :
    firstCapSub (c :: C :: (u ++ rest)) = c :: '_' :: C :: (u ++ firstCapSub rest) := by
  have hhead : isLower ((u ++ rest).headD ' ') = true := by
    match u, hu with
    | x :: u', _ => exact hlow x (by simp)
  have htk : rest.takeWhile isLower = [] := by
    match rest, hrest with
    | [], _ => rfl
    | r :: rest', h =>
      rcases h with h | h
      · cases h
      · simp only [List.headD_cons] at h
        rw [List.takeWhile_cons, if_neg (by simp [isLower_eq_false_of_isUpper h])]
  have hdw : rest.dropWhile isLower = rest := by
    match rest, hrest with
    | [], _ => rfl
    | r :: rest', h =>
      rcases h with h | h
      · cases h
      · simp only [List.headD_cons] at h
        rw [List.dropWhile_cons, if_neg (by simp [isLower_eq_false_of_isUpper h])]
  have htake := takeWhile_all_append isLower u rest hlow htk
  have hdrop := dropWhile_all_append isLower u rest hlow hdw
  show firstCapSubAux ((u ++ rest).length + 1 + 1) (c :: C :: (u ++ rest)) = _
  simp only [firstCapSubAux, hC, hhead, Bool.and_self, if_pos]
  rw [htake, hdrop]
  have hfuel : firstCapSubAux ((u ++ rest).length + 1) rest = firstCapSub rest := by
    apply fcsAux_congr
    · simp
      omega
    · exact le_refl _
  rw [hfuel]

/-- The first pass walks through a leading run whose tail is all
lower-case (no position inside it offers an upper-case group-2 start),
stopping just before its last character, the potential donor for a match
against what follows. -/
theorem firstCapSub_append_lead (lead : List Char) : ∀ (rest : List Char)
    (hne : lead ≠ []) (_ : ∀ c ∈ lead.tail, isLower c = true),
    firstCapSub (lead ++ rest) =
      lead.dropLast ++ firstCapSub (lead.getLast hne :: rest) := by
  induction lead with
  | nil => intro rest hne _; exact absurd rfl hne
  | cons a lead' ih =>
    intro rest hne htail
    match lead' with
    | [] => simp [List.dropLast, List.getLast]
    | b :: lead'' =>
      have hb : isLower b = true := htail b (by simp)
      have hnb : isUpper b = false := isUpper_eq_false_of_isLower hb
      have hstep : firstCapSub (a :: (b :: lead'' ++ rest)) =
          a :: firstCapSub (b :: lead'' ++ rest) := by
        rw [show b :: lead'' ++ rest = b :: (lead'' ++ rest) from rfl]
        exact firstCapSub_cons_no a b (lead'' ++ rest) (by simp [hnb])
      rw [show (a :: b :: lead'') ++ rest = a :: (b :: lead'' ++ rest) from rfl, hstep]
      rw [ih rest (by simp) (fun c hc => htail c (by simp [List.mem_cons]; right; simpa using hc))]
      rw [show (a :: b :: lead'').dropLast = a :: (b :: lead'').dropLast from rfl]
      rw [List.getLast_cons (by simp : b :: lead'' ≠ [])]
      rfl

theorem firstCapSub_singleton (c : Char) : firstCapSub [c] = [c] := rfl

/-- The second pass steps over a character not followed by an upper-case
letter, or itself neither lower-case nor a digit. -/
theorem allCapSub_cons_no (c : Char) : ∀ (l : List Char),
    ((isLower c || isDigit c) && isUpper (l.headD ' ')) = false →
    allCapSub (c :: l) = c :: allCapSub l := by
  intro l h
  match l with
  | [] => rfl
  | c₂ :: rest =>
    simp only [List.headD_cons] at h
    simp only [allCapSub, h]
    rfl

/-- The second pass fires on `([a-z0-9])([A-Z])`, consuming both
characters. -/
theorem allCapSub_pair (c₁ c₂ : Char) (rest : List Char)
    (h : ((isLower c₁ || isDigit c₁) && isUpper c₂) = true) :
    allCapSub (c₁ :: c₂ :: rest) = c₁ :: '_' :: c₂ :: allCapSub rest := by
  simp only [allCapSub, h]
  rfl

/-- The second pass walks through an all-lower run whenever what follows
does not start with an upper-case letter. -/
theorem allCapSub_append_lower (lead : List Char) : ∀ (rest : List Char),
    (∀ c ∈ lead, isLower c = true) → isUpper (rest.headD ' ') = false →
    allCapSub (lead ++ rest) = lead ++ allCapSub rest := by
  induction lead with
  | nil => intro rest _ _; rfl
  | cons a lead' ih =>
    intro rest hlow hrest
    have hhd : isUpper ((lead' ++ rest).headD ' ') = false := by
      match lead' with
      | [] => simpa using hrest
      | b :: lead'' =>
        simp only [List.cons_append, List.headD_cons]
        exact isUpper_eq_false_of_isLower (hlow b (by simp))
    rw [List.cons_append, allCapSub_cons_no a (lead' ++ rest) (by rw [hhd, Bool.and_false]),
      ih rest (fun c hc => hlow c (by simp [hc])) hrest, List.cons_append]

/-- The second pass walks through an all-lower run, stopping just before
its last character, the potential group-1 donor for what follows. -/
theorem allCapSub_append_lead (lead : List Char) : ∀ (rest : List Char)
    (hne : lead ≠ []), (∀ c ∈ lead, isLower c = true) →
    allCapSub (lead ++ rest) =
      lead.dropLast ++ allCapSub (lead.getLast hne :: rest) := by
  induction lead with
  | nil => intro rest hne _; exact absurd rfl hne
  | cons a lead' ih =>
    intro rest hne hlow
    match lead' with
    | [] => simp [List.dropLast, List.getLast]
    | b :: lead'' =>
      have hb : isUpper b = false :=
        isUpper_eq_false_of_isLower (hlow b (by simp))
      rw [show (a :: b :: lead'') ++ rest = a :: (b :: lead'' ++ rest) from rfl]
      rw [allCapSub_cons_no a (b :: lead'' ++ rest) (by simp [hb])]
      rw [ih rest (by simp) (fun c hc => hlow c (by simp [List.mem_cons]; right; simpa using hc))]
      rw [show (a :: b :: lead'').dropLast = a :: (b :: lead'').dropLast from rfl]
      rw [List.getLast_cons (by simp : b :: lead'' ≠ [])]
      rfl

/-- An all-lower-case string is a fixed point of the second pass. -/
theorem allCapSub_all_lower (l : List Char) (h : ∀ c ∈ l, isLower c = true) :
    allCapSub l = l := by
  have h1 := allCapSub_append_lower l [] h (by simp [isUpper])
  simp only [show allCapSub [] = [] from rfl, List.append_nil] at h1
  exact h1

/-- What the first pass makes of a well-formed camelCase name: underscores
before the odd-numbered capitalized words only (`fcsShape`), since each
match swallows the following word's capital run start.  Stated together
with the bare (no pending separator) form to close the two-phase
recursion. -/
theorem firstCapSub_camel (ws : List (Char × List Char)) (hws : GoodWords ws) :
    (∀ lead, lead ≠ [] → (∀ c ∈ lead.tail, isLower c = true) →
      firstCapSub (lead ++ camelWords ws) = lead ++ fcsShape true ws) ∧
    firstCapSub (camelWords ws) = fcsShape false ws := by
  induction ws with
  | nil =>
    constructor
    · intro lead hne htail
      have h1 := firstCapSub_append_lead lead [] hne htail
      simp only [camelWords, List.map_nil, List.flatten_nil, List.append_nil, fcsShape]
      simp only [List.append_nil] at h1
      rw [h1, firstCapSub_singleton]
      exact List.dropLast_append_getLast hne
    · rfl
  | cons w ws' ih =>
    have hw := hws w (by simp)
    have hws' : GoodWords ws' := fun x hx => hws x (by simp [hx])
    obtain ⟨ih1, ih2⟩ := ih hws'
    have hrest : camelWords ws' = [] ∨ isUpper ((camelWords ws').headD ' ') = true := by
      match ws', hws' with
      | [], _ => exact Or.inl rfl
      | w' :: ws'', hg =>
        right
        have hcw' : camelWords (w' :: ws'') = w'.1 :: (w'.2 ++ camelWords ws'') := by
          simp [camelWords]
        rw [hcw', List.headD_cons]
        exact (hg w' (by simp)).1
    constructor
    · intro lead hne htail
      have hcw : camelWords (w :: ws') = (w.1 :: w.2) ++ camelWords ws' := by
        simp [camelWords]
      have hlead := firstCapSub_append_lead lead ((w.1 :: w.2) ++ camelWords ws') hne htail
      rw [hcw, hlead]
      have hshape : lead.getLast hne :: ((w.1 :: w.2) ++ camelWords ws') =
          lead.getLast hne :: w.1 :: (w.2 ++ camelWords ws') := rfl
      rw [hshape, firstCapSub_trigger (lead.getLast hne) w.1 w.2 (camelWords ws')
        hw.1 hw.2.1 hw.2.2 hrest, ih2]
      conv_rhs => rw [← List.dropLast_append_getLast hne]
      simp [fcsShape, List.append_assoc]
    · rw [show camelWords (w :: ws') = (w.1 :: w.2) ++ camelWords ws' from by simp [camelWords]]
      rw [ih1 (w.1 :: w.2) (by simp) (by simpa using hw.2.2)]
      simp [fcsShape]

/-- What the second pass makes of the first pass's output on a well-formed
camelCase name: the missing underscores are inserted, giving one before
every capitalized word (`snakeShape`). -/
theorem allCapSub_camel (ws : List (Char × List Char)) (hws : GoodWords ws) :
    (∀ lead, (∀ c ∈ lead, isLower c = true) →
      allCapSub (lead ++ fcsShape true ws) = lead ++ snakeShape ws) ∧
    (∀ lead, lead ≠ [] → (∀ c ∈ lead, isLower c = true) →
      allCapSub (lead ++ fcsShape false ws) = lead ++ snakeShape ws) := by
  induction ws with
  | nil =>
    constructor
    · intro lead hlow
      simp only [fcsShape, snakeShape, List.map_nil, List.flatten_nil, List.append_nil]
      exact allCapSub_all_lower lead hlow
    · intro lead _ hlow
      simp only [fcsShape, snakeShape, List.map_nil, List.flatten_nil, List.append_nil]
      exact allCapSub_all_lower lead hlow
  | cons w ws' ih =>
    have hw := hws w (by simp)
    have hws' : GoodWords ws' := fun x hx => hws x (by simp [hx])
    obtain ⟨ih1, ih2⟩ := ih hws'
    constructor
    · intro lead hlow
      have hstep : fcsShape true (w :: ws') = '_' :: w.1 :: (w.2 ++ fcsShape false ws') := rfl
      rw [hstep]
      rw [allCapSub_append_lower lead ('_' :: w.1 :: (w.2 ++ fcsShape false ws')) hlow
        (by rw [List.headD_cons]; decide)]
      rw [allCapSub_cons_no '_' (w.1 :: (w.2 ++ fcsShape false ws'))
        (by rw [show (isLower '_' || isDigit '_') = false from rfl, Bool.false_and])]
      have hw2hd : isUpper ((w.2 ++ fcsShape false ws').headD ' ') = false := by
        cases h2 : w.2 with
        | nil => exact absurd h2 hw.2.1
        | cons x u =>
          rw [List.cons_append, List.headD_cons]
          exact isUpper_eq_false_of_isLower (hw.2.2 x (by rw [h2]; simp))
      rw [allCapSub_cons_no w.1 (w.2 ++ fcsShape false ws') (by rw [hw2hd, Bool.and_false])]
      rw [ih2 w.2 hw.2.1 hw.2.2]
      rw [show snakeShape (w :: ws') = ('_' :: w.1 :: w.2) ++ snakeShape ws' from by
        simp [snakeShape]]
      simp
    · intro lead hne hlow
      have hstep : fcsShape false (w :: ws') = w.1 :: (w.2 ++ fcsShape true ws') := rfl
      rw [hstep]
      rw [allCapSub_append_lead lead (w.1 :: (w.2 ++ fcsShape true ws')) hne hlow]
      have hglast : isLower (lead.getLast hne) = true := hlow _ (List.getLast_mem hne)
      rw [allCapSub_pair (lead.getLast hne) w.1 (w.2 ++ fcsShape true ws')
        (by rw [hglast, Bool.true_or, hw.1]; rfl)]
      rw [ih1 w.2 hw.2.2]
      conv_rhs => rw [← List.dropLast_append_getLast hne]
      simp [snakeShape, List.append_assoc]

/-- `str.lower()` leaves a lower-case character unchanged. -/
theorem lowerChar_of_isLower {c : Char} (h : isLower c = true) : lowerChar c = c := by
  simp [lowerChar, isUpper_eq_false_of_isLower h]

theorem map_lowerChar_all_lower (l : List Char) (h : ∀ c ∈ l, isLower c = true) :
    l.map lowerChar = l := by
  induction l with
  | nil => rfl
  | cons a t ih =>
    rw [List.map_cons, lowerChar_of_isLower (h a (by simp)),
      ih (fun c hc => h c (by simp [hc]))]

/-- Lower-casing the fully separated shape lowers exactly the word
initials. -/
theorem map_lowerChar_snakeShape (ws : List (Char × List Char)) (hws : GoodWords ws) :
    (snakeShape ws).map lowerChar = snakeWords ws := by
  induction ws with
  | nil => rfl
  | cons w ws' ih =>
    have hw := hws w (by simp)
    have hws' : GoodWords ws' := fun x hx => hws x (by simp [hx])
    rw [show snakeShape (w :: ws') = ('_' :: w.1 :: w.2) ++ snakeShape ws' from by
      simp [snakeShape]]
    rw [List.map_append, ih hws', List.map_cons, List.map_cons,
      map_lowerChar_all_lower w.2 hw.2.2,
      show lowerChar '_' = '_' from rfl]
    simp [snakeWords]

/-- The general camelCase mangling fact, assembled from the two regex
passes and the final lower-casing. -/
theorem attribute_to_field_name_camel (w₀ : List Char) (ws : List (Char × List Char))
    (h₀ : w₀ ≠ []) (h₀l : ∀ c ∈ w₀, isLower c = true) (hws : GoodWords ws) :
    attribute_to_field_name ⟨'@' :: (w₀ ++ camelWords ws)⟩ = ⟨w₀ ++ snakeWords ws⟩ := by
  unfold attribute_to_field_name
  have hdata : (String.mk ('@' :: (w₀ ++ camelWords ws))).data.tail = w₀ ++ camelWords ws := rfl
  rw [hdata]
  rw [(firstCapSub_camel ws hws).1 w₀ h₀ (fun c hc => h₀l c (List.mem_of_mem_tail hc))]
  rw [(allCapSub_camel ws hws).1 w₀ h₀l]
  rw [List.map_append, map_lowerChar_snakeShape ws hws, map_lowerChar_all_lower w₀ h₀l]

/-! ## Claim theorems -/

/-- C2 (counterexample): the claim maps every non-zero monetary value to
`value / 1,000,000`, but `clean` divides only when `int(value) > 0`: the
non-zero raw value `"-1500000"` is left as `-1500000`, not mapped to
`-1.50`. -/
theorem clean_negative_money_counterexample :
    clean "-1500000" .money = some (.dec (-1500000 : ℚ)) ∧
    clean "-1500000" .money ≠ some (.dec ((-1500000 : ℚ) / 1000000)) := by
  have h1 : clean "-1500000" FieldKind.money = some (.dec (mkRat (-1500000) 1)) := by decide
  have h2 : (mkRat (-1500000) 1 : ℚ) = (-1500000 : ℚ) := by
    rw [Rat.mkRat_eq_div]
    norm_num
  refine ⟨by rw [h1, h2], ?_⟩
  rw [h1, h2]
  intro hcon
  simp only [Option.some.injEq, Cleaned.dec.injEq] at hcon
  norm_num at hcon

/-- C2 (amended): `clean` maps `"--"` to null for every field type; for a
monetary field a value whose integer parse is positive is divided by
1,000,000, and zero or negative values are left as-is; for a
bounded-decimal/percentage field the characters `%`, `<`, `>`, `,` and
space are stripped (so `"1.87%" ↦ "1.87"` and `"< 10%" ↦ "10"`, the sign
discarded); every other field type passes the value through unchanged. -/
theorem clean_spec_amended :
    (∀ fk, clean "--" fk = some .null) ∧
    (∀ s n, parseInt? s = some n → 0 < n →
      clean s .money = some (.dec ((n : ℚ) / 1000000))) ∧
    (∀ s n, parseInt? s = some n → n ≤ 0 → clean s .money = some (.dec (n : ℚ))) ∧
    (∀ s, s ≠ "--" → clean s .decimal = some (.raw (stripDecimalChars s))) ∧
    (∀ s, stripDecimalChars s =
      ⟨s.data.filter (fun c => c ∉ [('%' : Char), '<', '>', ',', ' '])⟩) ∧
    (stripDecimalChars "1.87%" = "1.87" ∧ stripDecimalChars "< 10%" = "10") ∧
    (∀ s fk, s ≠ "--" → (fk = .integerF ∨ fk = .charF ∨ fk = .dateF) →
      clean s fk = some (.raw s)) := by
  refine ⟨fun _ => rfl, ?_, ?_, ?_, ?_, by decide, ?_⟩
  · intro s n hpi hpos
    have hs : s ≠ "--" := by
      rintro rfl
      have hnone : parseInt? "--" = none := by decide
      rw [hnone] at hpi
      cases hpi
    have hdiv : mkRat n 1000000 = (n : ℚ) / 1000000 := by
      rw [Rat.mkRat_eq_div]
      norm_num
    simp [clean, hs, hpi, if_pos hpos, hdiv]
  · intro s n hpi hnonpos
    have hs : s ≠ "--" := by
      rintro rfl
      have hnone : parseInt? "--" = none := by decide
      rw [hnone] at hpi
      cases hpi
    have h1 : mkRat n 1 = (n : ℚ) := by
      rw [Rat.mkRat_eq_div]
      norm_num
    simp [clean, hs, hpi, not_lt.mpr hnonpos, h1]
  · intro s hs
    simp [clean, hs]
  · intro s
    obtain ⟨l⟩ := s
    simp only [stripDecimalChars, List.foldl_cons, List.foldl_nil, List.filter_filter]
    congr 1
    apply List.filter_congr
    intro c _
    by_cases h1 : c = '%' <;> by_cases h2 : c = '<' <;> by_cases h3 : c = '>' <;>
      by_cases h4 : c = ',' <;> by_cases h5 : c = ' ' <;> simp [h1, h2, h3, h4, h5]
  · intro s fk hs hfk
    rcases hfk with rfl | rfl | rfl <;> simp [clean, hs]

/-- C9 (counterexample): the derivation drops the attribute's first
character — the external attribute `"CampaignStatus"` maps to
`ampaign_status`, not to `campaign_status` as the claim states. -/
theorem attribute_to_field_name_counterexample :
    attribute_to_field_name "CampaignStatus" = "ampaign_status" ∧
    attribute_to_field_name "CampaignStatus" ≠ "campaign_status" := by decide

/-- C9 (amended): the first character of the external attribute name — the
`@` marker the XML parser puts on row attributes — is dropped, then
separators are inserted at lower-case/digit-to-upper-case transitions and
the result lower-cased.  In general, every camelCase attribute of the form
`'@'`, then a non-empty all-lower-case leading word, then any list of
words each made of an upper-case initial and a non-empty all-lower-case
tail, maps to exactly those words joined by underscores in lower case —
so the parsed attribute `"@campaignStatus"` maps to `campaign_status`.
Attributes with upper-case runs (outside that shape) follow the same
transition rule, witnessed on the report attributes `"@campaignID"`,
`"@avgCPC"` and `"@adGroupID"`; the claim's bare example
`"CampaignStatus"` instead loses its first letter (see the
counterexample). -/
theorem attribute_to_field_name_amended :
    (∀ (w₀ : List Char) (ws : List (Char × List Char)),
      w₀ ≠ [] → (∀ c ∈ w₀, isLower c = true) → GoodWords ws →
      attribute_to_field_name ⟨'@' :: (w₀ ++ camelWords ws)⟩ = ⟨w₀ ++ snakeWords ws⟩) ∧
    attribute_to_field_name "@campaignStatus" = "campaign_status" ∧
    attribute_to_field_name "@campaignID" = "campaign_id" ∧
    attribute_to_field_name "@avgCPC" = "avg_cpc" ∧
    attribute_to_field_name "@adGroupID" = "ad_group_id" ∧
    attribute_to_field_name "@device" = "device" ∧
    attribute_to_field_name "@day" = "day" ∧
    attribute_to_field_name "@accountDescriptiveName" = "account_descriptive_name" ∧
    attribute_to_field_name "@bidStrategyName" = "bid_strategy_name" :=
  ⟨attribute_to_field_name_camel, by decide⟩

/-- C5: for every account and report kind, the finalizer sets that kind's
watermark to the maximum `day` over the kind's metrics rows stored for the
account (walking the hierarchy joins for the campaign, ad-group and ad
kinds): the watermark is `some d` exactly when `d` is a greatest stored day,
and is reset to `none` when no rows exist — never left at a previous
value. -/
theorem finish_sync_watermark_spec (db : MetricsDB) (a : AccountRec) (now : ℚ) :
    ((account_metric_days db a.account_id = [] →
        (finish_account_sync db a now).account_last_synced = none) ∧
      (∀ d, (finish_account_sync db a now).account_last_synced = some d ↔
        d ∈ account_metric_days db a.account_id ∧
          ∀ x ∈ account_metric_days db a.account_id, x ≤ d)) ∧
    ((campaign_metric_days db a.account_id = [] →
        (finish_campaign_sync db a now).campaign_last_synced = none) ∧
      (∀ d, (finish_campaign_sync db a now).campaign_last_synced = some d ↔
        d ∈ campaign_metric_days db a.account_id ∧
          ∀ x ∈ campaign_metric_days db a.account_id, x ≤ d)) ∧
    ((ad_group_metric_days db a.account_id = [] →
        (finish_ad_group_sync db a now).ad_group_last_synced = none) ∧
      (∀ d, (finish_ad_group_sync db a now).ad_group_last_synced = some d ↔
        d ∈ ad_group_metric_days db a.account_id ∧
          ∀ x ∈ ad_group_metric_days db a.account_id, x ≤ d)) ∧
    ((ad_metric_days db a.account_id = [] →
        (finish_ad_sync db a now).ad_last_synced = none) ∧
      (∀ d, (finish_ad_sync db a now).ad_last_synced = some d ↔
        d ∈ ad_metric_days db a.account_id ∧ ∀ x ∈ ad_metric_days db a.account_id, x ≤ d)) := by
  refine ⟨⟨?_, ?_⟩, ⟨?_, ?_⟩, ⟨?_, ?_⟩, ⟨?_, ?_⟩⟩
  · intro hnil
    simp [finish_account_sync, hnil]
  · intro d
    simp only [finish_account_sync]
    exact int_max?_eq_some_iff _ d
  · intro hnil
    simp [finish_campaign_sync, hnil]
  · intro d
    simp only [finish_campaign_sync]
    exact int_max?_eq_some_iff _ d
  · intro hnil
    simp [finish_ad_group_sync, hnil]
  · intro d
    simp only [finish_ad_group_sync]
    exact int_max?_eq_some_iff _ d
  · intro hnil
    simp [finish_ad_sync, hnil]
  · intro d
    simp only [finish_ad_sync]
    exact int_max?_eq_some_iff _ d

/-- C6: with `force=false`, a kind with no watermark requests from
`today − NEW_<KIND>_SYNC_DAYS`, a kind with watermark `w` from
`w − EXISTING_<KIND>_SYNC_DAYS`, each ending yesterday; and an explicitly
overridden finish is used verbatim by `get_selector`. -/
theorem sync_date_range_selection (today w newDays existingDays defaultStartDays : ℤ)
    (start : Option ℤ) (stv fin : ℤ) :
    sync_kind_dateRange false start none today newDays existingDays defaultStartDays =
      some (today - newDays, today - 1) ∧
    sync_kind_dateRange false start (some w) today newDays existingDays defaultStartDays =
      some (w - existingDays, today - 1) ∧
    get_selector_dateRange (some stv) (some fin) today defaultStartDays = (stv, fin) := by
  refine ⟨?_, ?_, rfl⟩ <;> cases start <;> rfl

/-- C7: `Account.spend` never reaches the data-inconsistency check or the
cost sum — its first read, `self.last_synced`, names an attribute the
`Account` model does not define, so every call fails with `AttributeError`
(the claim's dichotomy between `DataInconsistencyError` and the summed cost
never happens). -/
theorem spend_always_attribute_error (db : MetricsDB) (a : AccountRec) (start finish : ℤ) :
    spend db a start finish = .error .attributeError := rfl

/-- C8: on a fault whose rate-limit entries total 30 seconds, `request`
deletes the report-file record it created and raises
`RateExceededError(30)`; but `create_report_file`'s rate-limit handler then
reads the nonexistent attribute `get_account_data` (the task method is named
`create_report_file`), so instead of a retry signal rescheduling the fetch
after 30s the call dies with `AttributeError`.  On a non-rate-limit fault
the record is likewise deleted and the fault is wrapped with the account id
as `InterceptedGoogleAdsError`. -/
theorem create_report_file_rate_limit_crash :
    request [] 7 (.adsError rateFaultM) = ([], .error (.rateExceeded 30)) ∧
    create_report_file 123 [] 7 (.adsError rateFaultM) = ([], .error .attributeError) ∧
    create_report_file 123 [] 7 (.adsError otherFaultM) =
      ([], .error (.interceptedGoogleAdsError 123 otherFaultM)) :=
  ⟨rfl, rfl, rfl⟩

/-- Inductive invariant of the locking protocol: a worker inside its
critical section is the lock's holder. -/
theorem lockProtocol_invariant {n : ℕ} {s : LockProtocolState n}
    (h : LockReachable n s) :
    ∀ i, inCriticalSection (s.phase i) → s.holder = some i := by
  induction h with
  | init =>
    intro i hi
    rcases hi with h' | h' <;> exact absurd h' (by simp)
  | step _ hstep ih =>
    cases hstep with
    | acquireSuccess i hp hfree =>
      intro j hj
      by_cases hij : j = i
      · subst hij
        rfl
      · exfalso
        have hj' := hj
        simp only [Function.update_noteq hij] at hj'
        have hsome := ih j hj'
        rw [hfree] at hsome
        exact Option.noConfusion hsome
    | acquireFail i hp hheld =>
      exact ih
    | startWrite i hp =>
      intro j hj
      by_cases hij : j = i
      · subst hij
        exact ih j (Or.inl hp)
      · have hj' := hj
        simp only [Function.update_noteq hij] at hj'
        exact ih j hj'
    | release i hp =>
      intro j hj
      by_cases hij : j = i
      · subst hij
        exfalso
        have hj' := hj
        simp only [Function.update_same] at hj'
        rcases hj' with h' | h' <;> exact absurd h' (by simp)
      · exfalso
        have hj' := hj
        simp only [Function.update_noteq hij] at hj'
        have h₁ := ih j hj'
        have h₂ := ih i (Or.inr hp)
        rw [h₁] at h₂
        exact hij (Option.some.inj h₂)

/-- C10: in every reachable state of the multi-worker protocol, at most one
populate call per `(kind, key)` is inside its read-modify-write critical
section: two workers both in the critical section are the same worker, so
concurrent populate calls on one key never interleave their critical
sections. -/
theorem populate_mutual_exclusion {n : ℕ} {s : LockProtocolState n}
    (h : LockReachable n s) (i j : Fin n)
    (hi : inCriticalSection (s.phase i)) (hj : inCriticalSection (s.phase j)) :
    i = j := by
  have h1 := lockProtocol_invariant h i hi
  have h2 := lockProtocol_invariant h j hj
  rw [h1] at h2
  exact Option.some.inj h2

/-- C10 (witness): after worker 0 of two acquires the lock, the reached
state has worker 0 in its critical section and the mutual-exclusion theorem
applies there. -/
theorem populate_mutual_exclusion_witness :
    LockReachable 2 lockStateM ∧ inCriticalSection (lockStateM.phase 0) ∧ (0 : Fin 2) = 0 := by
  have hreach : LockReachable 2 lockStateM :=
    LockReachable.step LockReachable.init
      (LockStep.acquireSuccess ⟨none, fun _ => .trying⟩ 0 rfl rfl)
  have hcs : inCriticalSection (lockStateM.phase 0) := Or.inl (by
    simp [lockStateM, Function.update_same])
  exact ⟨hreach, hcs, populate_mutual_exclusion hreach 0 0 hcs hcs⟩

/-- C4: when coercion of a row attribute fails during a populate call — the
dict-population step raises `ValidationError(field_name, messages)` — the
locked call fails with exactly that error, nothing is persisted for the
entity (the final store is the initial store), and the named lock is
released (the final lock table is the initial one). -/
theorem populate_coercion_failure_aborts
    (schema : Schema) (tp : ToPython) (ign : List String) (lk : LockKey)
    (kwargs : Kwargs) (data : List (String × String)) (now : ℚ) (s : DBState)
    (f : String) (msgs : List String)
    (hlk : lk ∉ s.locks)
    (hfail : populate_model_from_dict schema tp ign
      ((alookup s.store kwargs).getD (newModel schema kwargs)) data =
        .error (.validation f msgs)) :
    populate schema tp ign lk kwargs data now s = (.error (.validation f msgs), s) := by
  simp only [populate_model_from_dict] at hfail
  simp only [populate, low_populate, populate_model_from_dict, acquireLock]
  cases hsk : alookup s.store kwargs with
  | some m₀ =>
    rw [hsk, Option.getD_some] at hfail
    simp only [hfail]
    rw [releaseLock_cons s.locks s.store lk hlk]
  | none =>
    rw [hsk, Option.getD_none] at hfail
    simp only [hfail]
    rw [releaseLock_cons s.locks s.store lk hlk]

/-- C4 (witness): populating the row `{ctr: "abc"}` into an empty store — the
`DecimalField` coercion of `"abc"` fails — aborts with the field's
`ValidationError` and leaves the empty state untouched, lock free. -/
theorem populate_coercion_failure_aborts_witness :
    populate schemaM toPythonC [] lkM kwargsM [("@ctr", "abc")] 1 ⟨[], []⟩ =
      (.error (.validation "ctr" ["This value must be a decimal number."]), ⟨[], []⟩) :=
  populate_coercion_failure_aborts schemaM toPythonC [] lkM kwargsM [("@ctr", "abc")] 1
    ⟨[], []⟩ "ctr" ["This value must be a decimal number."] (by decide) (by rfl)

/-- C1 (amended): populate is idempotent whenever no two of the row's
attribute names map to the same internal field name (true of every parsed
report row): a second populate call with identical row data returns exactly
the stored entity, computes an empty changed-field list — so the no-op
`save(update_fields=[])` persists zero fields — and leaves the persisted
state and lock table identical. -/
theorem populate_idempotent
    (schema : Schema) (tp : ToPython) (ign : List String) (lk : LockKey)
    (kwargs : Kwargs) (data : List (String × String)) (now₁ now₂ : ℚ) (s : DBState)
    (m₁ : Entity) (ufs₁ : List String) (s₁ : DBState)
    (hnd : (mappedFields data).Nodup)
    (hlk : lk ∉ s.locks)
    (h1 : populate schema tp ign lk kwargs data now₁ s = (.ok (m₁, ufs₁), s₁)) :
    ∃ e, alookup s₁.store kwargs = some e ∧
      populate schema tp ign lk kwargs data now₂ s₁ = (.ok (e, []), s₁) := by
  rcases populate_ok_cases hlk h1 with ⟨m₀, hsk, hloop, hs1⟩ | ⟨model, hsk, hloop, hm, hs1⟩
  · subst hs1
    refine ⟨saveUpdate schema m₀ m₁ ufs₁ now₁, alookup_aset_self _ _ _, ?_⟩
    exact populate_fixed_of_agree
      (fun g => if g ∈ ufs₁ then (if g = "updated" then Value.num now₁ else get_attr m₁ g)
        else get_attr m₀ g)
      hlk (alookup_aset_self _ _ _) rfl
      (saveUpdate_agrees hnd hloop)
      (populateLoop_ok_no_fail hloop)
  · subst hm
    subst hs1
    refine ⟨saveNew schema model now₁, alookup_aset_self _ _ _, ?_⟩
    exact populate_fixed_of_agree
      (fun g => if g = "created" ∨ g = "updated" then Value.num now₁ else get_attr model g)
      hlk (alookup_aset_self _ _ _) rfl
      (saveNew_agrees hnd hloop)
      (populateLoop_ok_no_fail hloop)

/-- C1 (witness): after populating the end-to-end scenario row into an empty
store, re-populating the identical row returns the stored entity with an
empty changed-field list and the state unchanged. -/
theorem populate_idempotent_witness :
    ∃ e, alookup s1M.store kwargsM = some e ∧
      populate schemaM toPythonC [] lkM kwargsM row1 2 s1M = (.ok (e, []), s1M) :=
  populate_idempotent schemaM toPythonC [] lkM kwargsM row1 1 2 ⟨[], []⟩ e1M
    ["day", "cost", "ctr", "clicks"] s1M (by decide) (by decide) (by rfl)

/-- C1 (counterexample): idempotence as claimed — zero changed fields on the
second call for every row — fails when two attribute names collide on one
internal field: for the dict `{@aB: "1", @a_b: "2"}` (both map to `a_b`) the
second identical call still reports `["a_b", "a_b"]` as changed, though the
persisted state is unchanged. -/
theorem populate_idempotent_counterexample :
    populate schemaX toPythonC [] lkX kwargsX rowX 1 ⟨[], []⟩ =
      (.ok (eX, ["a_b", "a_b"]), sX1) ∧
    (populate schemaX toPythonC [] lkX kwargsX rowX 2 sX1).1 = .ok (eX, ["a_b", "a_b"]) ∧
    (["a_b", "a_b"] : List String) ≠ [] ∧
    (populate schemaX toPythonC [] lkX kwargsX rowX 2 sX1).2 = sX1 := by
  refine ⟨rfl, rfl, by decide, rfl⟩

/-- C3 (amended): a populate call on an existing entity persists exactly the
fields whose coerced value differs from the entity's current value — but not
the audit `updated` timestamp, which is in `IGNORE_FIELDS` and never listed
in `update_fields`, hence not written by `save(update_fields=...)`; every
other persisted field keeps its stored value, and the persisted row carries
every entry's coerced value.  A newly created entity persists all populated
fields via its full save.  (Row attribute names are assumed pairwise
distinct after mapping, as in every parsed report row.) -/
theorem populate_persists_exactly_changed_fields
    (schema : Schema) (tp : ToPython) (ign : List String) (lk : LockKey)
    (kwargs : Kwargs) (data : List (String × String)) (now : ℚ) (s : DBState)
    (m₁ : Entity) (ufs₁ : List String) (s₁ : DBState)
    (hnd : (mappedFields data).Nodup)
    (hlk : lk ∉ s.locks)
    (h1 : populate schema tp ign lk kwargs data now s = (.ok (m₁, ufs₁), s₁)) :
    "updated" ∉ ufs₁ ∧
    (∀ e₀, alookup s.store kwargs = some e₀ →
      ∃ stored, alookup s₁.store kwargs = some stored ∧
        (∀ f, f ∈ ufs₁ ↔
          ∃ kv ∈ data, ∃ v, entryOut schema tp ign kv = .val f v ∧ v ≠ get_attr e₀ f) ∧
        (∀ kv ∈ data, ∀ f v, entryOut schema tp ign kv = .val f v →
          get_attr stored f = v) ∧
        (∀ f fs, alookup schema f = some fs → f ∉ ufs₁ →
          get_attr stored f = get_attr e₀ f)) ∧
    (alookup s.store kwargs = none →
      ∃ stored, alookup s₁.store kwargs = some stored ∧
        ∀ kv ∈ data, ∀ f v, entryOut schema tp ign kv = .val f v →
          get_attr stored f = v) := by
  rcases populate_ok_cases hlk h1 with ⟨m₀, hsk, hloop, hs1⟩ | ⟨model, hsk, hloop, hm, hs1⟩
  · subst hs1
    have hupd : "updated" ∉ ufs₁ := fun hin =>
      ((populateLoop_ufs_facts hloop "updated" hin).1) (by simp [IGNORE_FIELDS])
    refine ⟨hupd, ?_, ?_⟩
    · intro e₀ he₀
      rw [hsk] at he₀
      obtain rfl : m₀ = e₀ := Option.some.inj he₀
      refine ⟨saveUpdate schema m₀ m₁ ufs₁ now, alookup_aset_self _ _ _, ?_, ?_, ?_⟩
      · intro f
        have h := populateLoop_ufs_iff hnd hloop f
        simpa using h
      · exact fun kv hkv f v hval => saveUpdate_agrees hnd hloop kv hkv f v hval
      · intro f fs hfs hnotin
        rw [get_attr_saveUpdate m₀ m₁ ufs₁ now hfs, if_neg hnotin]
    · intro hnone
      rw [hsk] at hnone
      cases hnone
  · subst hm
    subst hs1
    have hupd : "updated" ∉ ufs₁ := fun hin =>
      ((populateLoop_ufs_facts hloop "updated" hin).1) (by simp [IGNORE_FIELDS])
    refine ⟨hupd, ?_, ?_⟩
    · intro e₀ he₀
      rw [hsk] at he₀
      cases he₀
    · intro _
      exact ⟨saveNew schema model now, alookup_aset_self _ _ _,
        fun kv hkv f v hval => saveNew_agrees hnd hloop kv hkv f v hval⟩

/-- C3 (witness): the second populate call of the end-to-end scenario — same
row with `cost: "3000000"` — computes `update_fields = ["cost"]`, and the
amended frame properties hold at that concrete run. -/
theorem populate_persists_exactly_changed_fields_witness :
    "updated" ∉ ["cost"] ∧
    (∀ e₀, alookup s1M.store kwargsM = some e₀ →
      ∃ stored, alookup s2M.store kwargsM = some stored ∧
        (∀ f, f ∈ ["cost"] ↔
          ∃ kv ∈ row2, ∃ v, entryOut schemaM toPythonC [] kv = .val f v ∧
            v ≠ get_attr e₀ f) ∧
        (∀ kv ∈ row2, ∀ f v, entryOut schemaM toPythonC [] kv = .val f v →
          get_attr stored f = v) ∧
        (∀ f fs, alookup schemaM f = some fs → f ∉ ["cost"] →
          get_attr stored f = get_attr e₀ f)) ∧
    (alookup s1M.store kwargsM = none →
      ∃ stored, alookup s2M.store kwargsM = some stored ∧
        ∀ kv ∈ row2, ∀ f v, entryOut schemaM toPythonC [] kv = .val f v →
          get_attr stored f = v) :=
  populate_persists_exactly_changed_fields schemaM toPythonC [] lkM kwargsM row2 2 s1M
    e2M ["cost"] s2M (by decide) (by decide) (by rfl)

/-- C3 (counterexample): the claim adds "plus an audit `updated` timestamp"
to the persisted fields; but the second populate call of the scenario, run
at time 2, persists only `cost`: `updated` is not in the persisted
field-list and the stored `updated` still carries the first call's stamp 1,
not 2. -/
theorem populate_updated_timestamp_not_persisted :
    populate schemaM toPythonC [] lkM kwargsM row2 2 s1M = (.ok (e2M, ["cost"]), s2M) ∧
    "updated" ∉ ["cost"] ∧
    alookup s2M.store kwargsM = some e2M ∧
    get_attr e2M "updated" = .num 1 ∧
    (Value.num 1 ≠ Value.num 2) := by
  refine ⟨rfl, by decide, rfl, rfl, by decide⟩

end DGA
